import Mathlib

/-!
# gitclone.c : location parsing and progress-line parsing

A shallow embedding of `src/tmp/gitclone.c`.

* A C string is the list of its characters before the terminating NUL.
* A pointer into a string is an offset from its start; `NULL` is `none`.
* `size_t` and `unsigned long` are 64-bit, represented by `Nat`.
* Heap allocation (`malloc`) is taken to succeed.
* A string literal assigned to a `const char *` field is a `String`.
* `report_parse_error` only prints its argument; the record handed to it is
  returned as the error value of `parse_git_url`.
-/

set_option autoImplicit false

namespace GitClone

/-! ## C library functions used by the program -/

/-- C library `strstr`: offset of the first occurrence of `needle`. -/
def strstr : List Char → List Char → Option Nat
  | [], needle => if needle.isEmpty then some 0 else none
  | c :: cs, needle =>
    if needle.isPrefixOf (c :: cs) then some 0
    else (strstr cs needle).map (· + 1)

/-- C library `isspace` in the "C" locale. -/
def isspace (c : Char) : Bool :=
  c == ' ' || c == '\t' || c == '\n' || c == '\x0b' || c == '\x0c' || c == '\r'

/-- C library `isdigit`. -/
def isdigit (c : Char) : Bool := decide ('0' ≤ c) && decide (c ≤ '9')

/-- Value of a run of decimal digits, most significant first. -/
def digitsValue (ds : List Char) : Nat :=
  ds.foldl (fun acc d => acc * 10 + (d.toNat - '0'.toNat)) 0

/-- Largest `unsigned long`. -/
def ULONG_MAX : Nat := 2 ^ 64 - 1

/-- C library `strtoul(str, &endptr, 10)`: the converted value and the text
at `endptr`. Leading white space is skipped, one sign is accepted, a negated
value wraps modulo `2 ^ 64`, an out-of-range value is `ULONG_MAX`, and with
no digits at all the value is 0 and `endptr` is `str`. -/
def strtoul (str : List Char) : Nat × List Char :=
  let s := str.dropWhile isspace
  let signed : Bool × List Char :=
    match s with
    | [] => (false, s)
    | c :: r => if c = '-' then (true, r) else if c = '+' then (false, r) else (false, s)
  let ds := signed.2.takeWhile isdigit
  if ds.isEmpty then (0, str)
  else
    let v := digitsValue ds
    let val :=
      if ULONG_MAX < v then ULONG_MAX
      else if signed.1 then (2 ^ 64 - v) % 2 ^ 64
      else v
    (val, signed.2.dropWhile isdigit)

/-! ## Helper functions of gitclone.c -/

/-- Source `str_ndup`: the first `n` characters. -/
def str_ndup (str : List Char) (n : Nat) : List Char := str.take n

/-- Source `str_find`. -/
def str_find (haystack needle : List Char) : Option Nat := strstr haystack needle

/-- Loop of `str_find_last`: `curr` is the scan position, `last` the last
match seen; the first argument bounds the number of iterations. -/
def str_find_last_loop (haystack needle : List Char) :
    Nat → Nat → Option Nat → Option Nat
  | 0, _, last => last
  | fuel + 1, curr, last =>
    match strstr (haystack.drop curr) needle with
    | none => last
    | some k => str_find_last_loop haystack needle fuel (curr + k + 1) (some (curr + k))

/-- Source `str_find_last`: offset of the last occurrence of `needle`. -/
def str_find_last (haystack needle : List Char) : Option Nat :=
  str_find_last_loop haystack needle (haystack.length + 1) 0 none

/-- Source `str_starts_with`. -/
def str_starts_with (str pre : List Char) : Bool :=
  str.take pre.length == pre

/-- Source `str_ends_with`. -/
def str_ends_with (str suffix : List Char) : Bool :=
  if suffix.length > str.length then false
  else str.drop (str.length - suffix.length) == suffix

/-- White space recognised by `str_trim`. -/
def trimSpace (c : Char) : Bool :=
  c == ' ' || c == '\t' || c == '\n' || c == '\r'

/-- Source `str_trim`: skip white space from the front, then from the back. -/
def str_trim (str : List Char) : List Char :=
  ((str.dropWhile trimSpace).reverse.dropWhile trimSpace).reverse

/-- Source `str_to_size`: the value when `strtoul` consumed the whole text. -/
def str_to_size (str : List Char) : Option Nat :=
  let r := strtoul str
  if r.2 ≠ [] then none else some r.1

/-! ## Progress lines -/

/-- Source `ProgressBar`. -/
structure ProgressBar where
  total : Nat
  current : Nat
  phase : String
  width : Nat
  deriving DecidableEq

/-- Source `GitProgressInfo`. -/
structure GitProgressInfo where
  current : Nat
  total : Nat
  deriving DecidableEq

/-- Source `parse_git_percentage`. -/
def parse_git_percentage (line : List Char) : Option GitProgressInfo :=
  match str_find line ['('] with
  | none => none
  | some open_paren =>
    match str_find (line.drop open_paren) [')'] with
    | none => none
    | some close_off =>
      -- close_paren = open_paren + close_off
      let paren_len := close_off - 1
      let progress_str := str_ndup (line.drop (open_paren + 1)) paren_len
      match str_find progress_str ['/'] with
      | none => none
      | some slash_pos =>
        let current_str := str_ndup progress_str slash_pos
        let trimmed_current := str_trim current_str
        match str_to_size trimmed_current with
        | none => none
        | some current =>
          let total_str := progress_str.drop (slash_pos + 1)
          let total_str :=
            match str_find total_str [','] with
            | some comma => total_str.take comma
            | none => total_str
          let trimmed_total := str_trim total_str
          match str_to_size trimmed_total with
          | none => none
          | some total => some { current := current, total := total }

/-- Update of the counters shared by the four branches of
`parse_git_progress`. -/
def apply_info (info : Option GitProgressInfo) (progress : ProgressBar) : ProgressBar :=
  match info with
  | some i => { progress with current := i.current, total := i.total }
  | none => progress

/-- Source `parse_git_progress`. -/
def parse_git_progress (line : List Char) (progress : ProgressBar) : ProgressBar :=
  if (str_find line "Counting objects:".toList).isSome then
    apply_info (parse_git_percentage line) { progress with phase := "Counting  " }
  else if (str_find line "Compressing objects:".toList).isSome then
    apply_info (parse_git_percentage line) { progress with phase := "Compressing" }
  else if (str_find line "Receiving objects:".toList).isSome then
    apply_info (parse_git_percentage line) { progress with phase := "Receiving " }
  else if (str_find line "Resolving deltas:".toList).isSome then
    apply_info (parse_git_percentage line) { progress with phase := "Resolving " }
  else progress

/-! ## Location strings -/

/-- Source `GitUrl`. -/
structure GitUrl where
  org : List Char
  repo : List Char
  deriving DecidableEq

/-- Source `UrlParseError`; a field left out of the initialiser is `NULL`. -/
structure UrlParseError where
  reason : String
  url : List Char
  detected_format : Option String := none
  found_at : Option (List Char) := none
  expected : Option String := none
  deriving DecidableEq

/-- Source `parse_path_component`. -/
def parse_path_component (path : List Char) : Option GitUrl :=
  match str_find path ['/'] with
  | none => none
  | some slash_pos =>
    let org := str_ndup path slash_pos
    let repo := path.drop (slash_pos + 1)
    let repo :=
      if str_ends_with repo ".git".toList then repo.take (repo.length - 4) else repo
    some { org := org, repo := repo }

/-- Source `parse_git_url`: the identity, or the diagnostic that is reported. -/
def parse_git_url (url : List Char) : Except UrlParseError GitUrl :=
  if (str_find url ['@']).isNone && (str_find url "://".toList).isNone then
    .error { reason := "URL doesn't match any known git URL format"
             url := url
             detected_format := some "Local path or invalid format"
             expected := some "git@host:org/repo OR https://host/org/repo" }
  else
    match str_find url ['@'] with
    | some at_pos =>
      match str_find_last url [':'] with
      | none =>
        let host_part := url.drop (at_pos + 1)
        .error { reason := "SSH format missing colon separator"
                 url := url
                 detected_format := some "SSH (git@...)"
                 found_at := some host_part
                 expected := some "git@host:org/repo" }
      | some colon_pos =>
        let path := url.drop (colon_pos + 1)
        if (str_find path ['/']).isNone then
          .error { reason := "Path missing org/repo separator"
                   url := url
                   detected_format := some "SSH (git@host:...)"
                   found_at := some path
                   expected := some "org/repo or org/repo.git" }
        else
          match parse_path_component path with
          | none =>
            .error { reason := "Failed to parse org/repo from path"
                     url := url
                     detected_format := some "SSH"
                     found_at := some path
                     expected := some "org/repo or org/repo.git" }
          | some result => .ok result
    | none =>
      if str_starts_with url "http://".toList || str_starts_with url "https://".toList then
        let protocol : String :=
          if str_starts_with url "https://".toList then "https" else "http"
        match str_find url "://".toList with
        | none =>
          .error { reason := "Malformed protocol"
                   url := url
                   detected_format := some "HTTP/HTTPS"
                   expected := some "http:// or https://" }
        | some protocol_end =>
          let after_protocol := url.drop (protocol_end + 3)
          match str_find after_protocol ['/'] with
          | none =>
            .error { reason := "Missing path after hostname"
                     url := url
                     detected_format := some protocol
                     found_at := some after_protocol
                     expected := some "host/org/repo" }
          | some slash_pos =>
            let path := after_protocol.drop (slash_pos + 1)
            if (str_find path ['/']).isNone then
              .error { reason := "Path missing org/repo separator"
                       url := url
                       detected_format := some protocol
                       found_at := some path
                       expected := some "org/repo or org/repo.git" }
            else
              match parse_path_component path with
              | none =>
                .error { reason := "Failed to parse org/repo from path"
                         url := url
                         detected_format := some protocol
                         found_at := some path
                         expected := some "org/repo or org/repo.git" }
              | some result => .ok result
      else
        .error { reason := "URL doesn't start with recognized protocol"
                 url := url
                 expected := some "git@... OR http://... OR https://..." }

/-- The suffix rule of `parse_path_component`, in the words of the
specification: one trailing ".git" is removed when present. -/
def strip_git_suffix (repo : List Char) : List Char :=
  if ".git".toList <:+ repo then repo.take (repo.length - 4) else repo

/-- The four phase markers with their display labels, in the order in which
`parse_git_progress` tests them. -/
def phase_markers : List (List Char × String) :=
  [("Counting objects:".toList, "Counting  "),
   ("Compressing objects:".toList, "Compressing"),
   ("Receiving objects:".toList, "Receiving "),
   ("Resolving deltas:".toList, "Resolving ")]

/-- Label of the first marker of `phase_markers` that occurs in the line. -/
def phase_of_line (line : List Char) : Option String :=
  (phase_markers.find? (fun m => decide (m.1 <:+: line))).map Prod.snd

/-- The total half of the counter segment as `parse_git_percentage` reads it:
cut at its first ','. -/
def cut_at_comma (tot : List Char) : List Char :=
  match str_find tot [','] with
  | some comma => tot.take comma
  | none => tot

/-- A progress line: a marker, then a parenthesised `current/total` pair with
optional blanks around the numbers and optional text after the total. -/
def counter_line (marker pre mid ws1 c ws2 ws3 t ws4 extra tail : List Char) : List Char :=
  pre ++ marker ++ mid ++ ['('] ++ ws1 ++ c ++ ws2 ++ ['/'] ++ ws3 ++ t ++ ws4 ++ extra
    ++ [')'] ++ tail

/-! ## Progress renderer -/

/-- Multiplication of two `size_t` values: the product modulo `2 ^ 64`. -/
def size_mul (a b : Nat) : Nat := (a * b) % 2 ^ 64

/-- Local `percent` of source `draw_progress_bar`, after the clamp. -/
def draw_percent (bar : ProgressBar) : Nat :=
  let percent := if bar.total > 0 then size_mul bar.current 100 / bar.total else 0
  if percent > 100 then 100 else percent

/-- Local `filled` of source `draw_progress_bar`. -/
def draw_filled (bar : ProgressBar) : Nat :=
  size_mul bar.width (draw_percent bar) / 100

/-- A loop `for (; i < hi; i++) printf(glyph)`; the first argument bounds the
number of iterations. -/
def print_glyphs (glyph : Char) (hi : Nat) : Nat → Nat → List Char
  | 0, _ => []
  | fuel + 1, i => if i < hi then glyph :: print_glyphs glyph hi fuel (i + 1) else []

/-- Conversion `%zu` of `printf`. -/
def print_size (n : Nat) : List Char := (Nat.repr n).toList

/-- Source `draw_progress_bar`: the text written to standard output. -/
def draw_progress_bar (bar : ProgressBar) : List Char :=
  let percent := draw_percent bar
  let filled := draw_filled bar
  "\r\x1b[K".toList
    ++ (bar.phase.toList ++ " [".toList)
    ++ print_glyphs '█' filled filled 0
    ++ print_glyphs '░' bar.width bar.width filled
    ++ ("] ".toList ++ print_size percent ++ "% (".toList ++ print_size bar.current
        ++ "/".toList ++ print_size bar.total ++ ")".toList)

/-- Source `finish_progress_bar`: the text written to standard output. -/
def finish_progress_bar (bar : ProgressBar) : List Char :=
  draw_progress_bar bar ++ "\n".toList

/-! ## Read loop of the clone supervisor -/

/-- Size of `line_buffer` in `run_git_clone_with_progress`. -/
def LINE_BUFFER_SIZE : Nat := 4096

/-- The NUL character. -/
def NUL : Char := Char.ofNat 0

/-- Store `buf[i] = c` into a char array; `none` when `i` lies outside it. -/
def array_store (buf : List Char) (i : Nat) (c : Char) : Option (List Char) :=
  if i < buf.length then some (buf.set i c) else none

/-- The C string held in a char array: its characters before the first NUL. -/
def c_string (buf : List Char) : List Char := buf.takeWhile (fun c => c != NUL)

/-- State of the read loop: the line buffer and position, the progress bar,
the lines handed to `parse_git_progress` so far and the text drawn so far. -/
structure ReadLoopState where
  line_buffer : List Char
  line_pos : Nat
  progress : ProgressBar
  lines : List (List Char)
  output : List Char

/-- Body of the inner `for` loop of `run_git_clone_with_progress` for one
byte `c`; `none` when a store falls outside `line_buffer`. -/
def read_loop_byte (s : ReadLoopState) (c : Char) : Option ReadLoopState :=
  if c = '\r' ∨ c = '\n' then
    let flushed : Option ReadLoopState :=
      if s.line_pos > 0 then
        match array_store s.line_buffer s.line_pos NUL with
        | none => none
        | some buf =>
          let line := c_string buf
          let progress := parse_git_progress line s.progress
          some { line_buffer := buf
                 line_pos := 0
                 progress := progress
                 lines := s.lines ++ [line]
                 output := s.output ++ draw_progress_bar progress }
      else some s
    match flushed with
    | none => none
    | some s1 => if c = '\n' then some { s1 with line_pos := 0 } else some s1
  else if s.line_pos < LINE_BUFFER_SIZE - 1 then
    match array_store s.line_buffer s.line_pos c with
    | none => none
    | some buf => some { s with line_buffer := buf, line_pos := s.line_pos + 1 }
  else some s

/-- Inner `for` loop over the bytes of one chunk. -/
def read_loop_chunk (s : ReadLoopState) : List Char → Option ReadLoopState
  | [] => some s
  | c :: cs =>
    match read_loop_byte s c with
    | none => none
    | some s1 => read_loop_chunk s1 cs

/-- Outer `while` loop over the chunks returned by `read`; an empty chunk
(`bytes_read <= 0`) or the end of the list ends the loop. -/
def read_loop (s : ReadLoopState) : List (List Char) → Option ReadLoopState
  | [] => some s
  | chunk :: rest =>
    if chunk.length ≤ 0 then some s
    else
      match read_loop_chunk s chunk with
      | none => none
      | some s1 => read_loop s1 rest

/-- State at the start of the read loop; `line_buffer` is not initialised, so
its content `garbage` is arbitrary. -/
def read_loop_start (garbage : List Char) : ReadLoopState :=
  { line_buffer := garbage
    line_pos := 0
    progress := { total := 100, current := 0, phase := "", width := 40 }
    lines := []
    output := [] }

/-- A line terminator of the child's output. -/
def is_terminator (c : Char) : Bool := c == '\r' || c == '\n'

/-- The lines of the specification: the input split at every terminator,
without the final unterminated segment, empty segments left out, each cut to
4095 characters. -/
def terminated_lines (input : List Char) : List (List Char) :=
  (((input.splitOnP is_terminator).dropLast).filter (fun seg => !seg.isEmpty)).map
    (List.take 4095)

/-! ## Directory creation -/

/-- Result of one `mkdir` call: created, failed with `EEXIST`, or failed with
another error. -/
inductive MkdirOutcome where
  | created
  | eexist
  | failed
  deriving DecidableEq

/-- Final `mkdir(copy, 0755)` of `mkdir_recursive`; `attempts` are the paths
tried so far, `mkdir n` is the outcome of call number `n`. -/
def mkdir_final (copy : List Char) (mkdir : Nat → MkdirOutcome)
    (attempts : List (List Char)) : Bool × List (List Char) :=
  if mkdir attempts.length = MkdirOutcome.failed then (false, attempts ++ [copy])
  else (true, attempts ++ [copy])

/-- The `for` loop of `mkdir_recursive` from position `p`, followed by the
final call; with `*p = 0` the string at `copy` is its first `p` characters.
The first argument bounds the number of iterations. -/
def mkdir_loop (copy : List Char) (mkdir : Nat → MkdirOutcome) :
    Nat → Nat → List (List Char) → Bool × List (List Char)
  | 0, _, attempts => mkdir_final copy mkdir attempts
  | fuel + 1, p, attempts =>
    if p < copy.length then
      if copy.getD p NUL = '/' then
        if mkdir attempts.length = MkdirOutcome.failed then (false, attempts ++ [copy.take p])
        else mkdir_loop copy mkdir fuel (p + 1) (attempts ++ [copy.take p])
      else mkdir_loop copy mkdir fuel (p + 1) attempts
    else mkdir_final copy mkdir attempts

/-- Source `mkdir_recursive`: the return value (1 as `true`) and the paths
handed to `mkdir`, in order. -/
def mkdir_recursive (path : List Char) (mkdir : Nat → MkdirOutcome) :
    Bool × List (List Char) :=
  if path.isEmpty then (true, [])
  else mkdir_loop path mkdir path.length 1 []

/-- The attempts of the specification: every prefix that ends just before a
'/' at index 1 or later, in order, then the full path. -/
def planned_attempts (path : List Char) : List (List Char) :=
  (((List.range' 1 (path.length - 1)).filter (fun i => path.getD i NUL == '/')).map
    (fun i => path.take i)) ++ [path]

/-! ## Argument scan of main -/

/-- The `for` loop of `main` over `argv` from index `i`: exit code 1, or the
final `root_dir` and `git_url`. The first argument bounds the number of
iterations. -/
def main_scan_loop (argv : List (List Char)) :
    Nat → Nat → Option (List Char) → Option (List Char) →
      Except Nat (Option (List Char) × Option (List Char))
  | 0, _, root_dir, git_url => .ok (root_dir, git_url)
  | fuel + 1, i, root_dir, git_url =>
    if i < argv.length then
      if argv.getD i [] = "--root".toList then
        if i + 1 ≥ argv.length then .error 1
        else main_scan_loop argv fuel (i + 1 + 1) (some (argv.getD (i + 1) [])) git_url
      else if git_url.isNone then
        main_scan_loop argv fuel (i + 1) root_dir (some (argv.getD i []))
      else .error 1
    else .ok (root_dir, git_url)

/-- Source `main` up to the call of `parse_git_url`: exit code 1, or the
location and the root directory it goes on with. -/
def main_arguments (argv : List (List Char)) : Except Nat (List Char × Option (List Char)) :=
  match main_scan_loop argv argv.length 1 none none with
  | .error code => .error code
  | .ok (root_dir, git_url) =>
    match git_url with
    | none => .error 1
    | some url => .ok (url, root_dir)

/-- Role of a token in the left-to-right scan: a "--root" with its value, a
"--root" with nothing after it, or a positional. -/
inductive ArgItem where
  | root (value : List Char)
  | dangling
  | positional (token : List Char)
  deriving DecidableEq

/-- Left-to-right reading of the arguments, each "--root" taking the next
token as its value. -/
def classify_args : List (List Char) → List ArgItem
  | [] => []
  | [a] => if a = "--root".toList then [ArgItem.dangling] else [ArgItem.positional a]
  | a :: v :: rest =>
    if a = "--root".toList then ArgItem.root v :: classify_args rest
    else ArgItem.positional a :: classify_args (v :: rest)

/-- The positional tokens of a classified argument list. -/
def positionals (items : List ArgItem) : List (List Char) :=
  items.filterMap (fun it => match it with | ArgItem.positional p => some p | _ => none)

/-- The "--root" values of a classified argument list. -/
def root_values (items : List ArgItem) : List (List Char) :=
  items.filterMap (fun it => match it with | ArgItem.root v => some v | _ => none)

/-- Result of `parse_git_url` that the specification assigns to the text after
the last ':' of an input containing '@'. -/
def identity_of_suffix (suffix : List Char) : Option GitUrl :=
  if '/' ∈ suffix then
    some { org := suffix.takeWhile (fun c => c != '/')
           repo := strip_git_suffix ((suffix.dropWhile (fun c => c != '/')).drop 1) }
  else none

/-! ## Auxiliary definitions for the later claims -/

/-- Closed form of the scan from a state `(root_dir, git_url)` over tokens
classified as `items`. -/
def scan_outcome (items : List ArgItem) (root_dir git_url : Option (List Char)) :
    Except Nat (Option (List Char) × Option (List Char)) :=
  if ArgItem.dangling ∈ items ∨ 2 ≤ git_url.toList.length + (positionals items).length then
    .error 1
  else
    .ok (match (root_values items).getLast? with
         | some v => some v
         | none => root_dir,
         match git_url with
         | some u => some u
         | none => (positionals items).head?)

/-- Candidate prefixes from position `p` on: the prefix before each '/' at an
index from `p` to the end. -/
def candidates_from (path : List Char) (p : Nat) : List (List Char) :=
  ((List.range' p (path.length - p)).filter (fun i => path.getD i NUL == '/')).map
    (fun i => path.take i)

/-- Attempting `todo` in order after `done`, stopping at the first call that
fails with an error other than `EEXIST`. -/
def run_attempts (mkdir : Nat → MkdirOutcome) :
    List (List Char) → List (List Char) → Bool × List (List Char)
  | done, [] => (true, done)
  | done, a :: rest =>
    if mkdir done.length = MkdirOutcome.failed then (false, done ++ [a])
    else run_attempts mkdir (done ++ [a]) rest

/-- Bounds kept by the read loop: the buffer has its declared size and
`line_pos` is at most the last index. -/
def ReadInv (s : ReadLoopState) : Prop :=
  s.line_buffer.length = LINE_BUFFER_SIZE ∧ s.line_pos ≤ LINE_BUFFER_SIZE - 1

/-- The buffer holds the first 4095 characters of the unterminated text `acc`
received since the last terminator. -/
def Pending (acc : List Char) (s : ReadLoopState) : Prop :=
  s.line_buffer.length = LINE_BUFFER_SIZE ∧ s.line_pos = min 4095 acc.length ∧
    s.line_buffer.take s.line_pos = acc.take 4095

/-- One dispatch in the words of the specification: the line goes through
`parse_git_progress`, then `draw_progress_bar` writes the bar of the updated
state. The pair is the progress state and the text written so far. -/
def dispatch_line (st : ProgressBar × List Char) (line : List Char) :
    ProgressBar × List Char :=
  (parse_git_progress line st.1, st.2 ++ draw_progress_bar (parse_git_progress line st.1))

/-! ## Facts about the library functions -/

theorem strstr_eq_none_iff (s n : List Char) : strstr s n = none ↔ ¬ n <:+: s := by
  induction s with
  | nil => cases n <;> simp [strstr]
  | cons c cs ih =>
    rw [strstr, List.infix_cons_iff]
    by_cases h : n.isPrefixOf (c :: cs) = true
    · simp [h, List.isPrefixOf_iff_prefix.mp h]
    · have h2 : ¬ n <+: c :: cs := fun hp => h (List.isPrefixOf_iff_prefix.mpr hp)
      simp [h, h2, ih]

theorem strstr_isSome_iff (s n : List Char) : (strstr s n).isSome = true ↔ n <:+: s := by
  rw [← not_iff_not, ← strstr_eq_none_iff]
  cases strstr s n <;> simp

theorem strstr_single_none {c : Char} {s : List Char} (h : c ∉ s) : strstr s [c] = none := by
  rw [strstr_eq_none_iff]
  intro hin
  exact h (hin.subset (List.mem_singleton_self c))

theorem strstr_single_append {c : Char} (a b : List Char) (h : c ∉ a) :
    strstr (a ++ c :: b) [c] = some a.length := by
  induction a with
  | nil => simp [strstr, List.isPrefixOf]
  | cons x xs ih =>
    have hx : c ≠ x := fun e => h (by simp [e])
    have hxs : c ∉ xs := fun e => h (by simp [e])
    simp [strstr, List.isPrefixOf, hx, ih hxs]

theorem strstr_single_some {c : Char} {s : List Char} {k : Nat} (h : strstr s [c] = some k) :
    ∃ a b, s = a ++ c :: b ∧ c ∉ a ∧ a.length = k := by
  induction s generalizing k with
  | nil => simp [strstr] at h
  | cons x xs ih =>
    by_cases hx : c = x
    · subst hx
      simp [strstr, List.isPrefixOf] at h
      exact ⟨[], xs, by simp, by simp, by simpa using h⟩
    · simp [strstr, List.isPrefixOf, hx] at h
      obtain ⟨j, hj, rfl⟩ := h
      obtain ⟨a, b, rfl, hna, rfl⟩ := ih hj
      refine ⟨x :: a, b, by simp, ?_, by simp⟩
      simp [hx, hna]

theorem strstr_single_le {c : Char} (a b : List Char) {k : Nat}
    (h : strstr (a ++ c :: b) [c] = some k) : k ≤ a.length := by
  obtain ⟨a', b', heq, hna, rfl⟩ := strstr_single_some h
  rcases List.append_eq_append_iff.mp heq with ⟨m, rfl, hm⟩ | ⟨m, rfl, _⟩
  · cases m with
    | nil => simp
    | cons x xs =>
      simp only [List.cons_append, List.cons.injEq] at hm
      exact absurd (by simp [← hm.1]) hna
  · simp

theorem str_find_last_loop_none {c : Char} {s : List Char} (fuel curr : Nat)
    (last : Option Nat) (h : c ∉ s.drop curr) :
    str_find_last_loop s [c] fuel curr last = last := by
  cases fuel with
  | zero => rfl
  | succ n => simp [str_find_last_loop, strstr_single_none h]

theorem str_find_last_loop_append {c : Char} (a b : List Char) (hb : c ∉ b) :
    ∀ (fuel curr : Nat) (last : Option Nat), curr ≤ a.length → a.length + 1 ≤ fuel + curr →
      str_find_last_loop (a ++ c :: b) [c] fuel curr last = some a.length := by
  intro fuel
  induction fuel with
  | zero => intro curr last h1 h2; omega
  | succ n ih =>
    intro curr last h1 h2
    have hdrop : (a ++ c :: b).drop curr = a.drop curr ++ c :: b :=
      List.drop_append_of_le_length h1
    rw [str_find_last_loop, hdrop]
    cases hk : strstr (a.drop curr ++ c :: b) [c] with
    | none =>
      rw [strstr_eq_none_iff] at hk
      exact absurd ⟨a.drop curr, b, by simp⟩ hk
    | some k =>
      have hle : k ≤ (a.drop curr).length := strstr_single_le _ _ hk
      rw [List.length_drop] at hle
      simp only
      by_cases hlt : curr + k < a.length
      · exact ih _ _ (by omega) (by omega)
      · have hkeq : curr + k = a.length := by omega
        rw [hkeq]
        apply str_find_last_loop_none
        simpa using hb

theorem str_find_last_single_append {c : Char} (a b : List Char) (hb : c ∉ b) :
    str_find_last (a ++ c :: b) [c] = some a.length :=
  str_find_last_loop_append a b hb _ 0 none (Nat.zero_le _) (by simp)

theorem str_find_last_single_none {c : Char} {s : List Char} (h : c ∉ s) :
    str_find_last s [c] = none :=
  str_find_last_loop_none _ 0 none (by simpa using h)

theorem str_ends_with_iff (s suf : List Char) : str_ends_with s suf = true ↔ suf <:+ s := by
  unfold str_ends_with
  by_cases hlen : suf.length > s.length
  · simp only [hlen, if_true]
    constructor
    · intro h; cases h
    · intro h; have := h.length_le; omega
  · simp only [hlen, if_false, beq_iff_eq]
    constructor
    · intro h
      have key := List.take_append_drop (s.length - suf.length) s
      rw [h] at key
      exact ⟨_, key⟩
    · rintro ⟨t, rfl⟩
      simp

theorem parse_path_component_split (org rest : List Char) (ho : '/' ∉ org) :
    parse_path_component (org ++ '/' :: rest) =
      some { org := org, repo := strip_git_suffix rest } := by
  have hs : str_ends_with rest ".git".toList = true ↔ ".git".toList <:+ rest :=
    str_ends_with_iff _ _
  unfold parse_path_component str_find
  rw [strstr_single_append org rest ho]
  have hd : (org ++ '/' :: rest).drop (org.length + 1) = rest := by
    rw [← List.drop_drop]; simp
  simp only [str_ndup, strip_git_suffix, List.take_left', hd]
  by_cases h : ".git".toList <:+ rest
  · rw [if_pos (hs.mpr h), if_pos h]
  · have hf : ¬ str_ends_with rest ".git".toList = true := fun hb => h (hs.mp hb)
    rw [if_neg hf, if_neg h]

theorem strstr_single_of_mem {c : Char} {s : List Char} (h : c ∈ s) :
    ∃ k, strstr s [c] = some k := by
  obtain ⟨a, b, rfl⟩ := List.append_of_mem h
  cases hk : strstr (a ++ c :: b) [c] with
  | none =>
    rw [strstr_eq_none_iff] at hk
    exact absurd ⟨a, b, by simp⟩ hk
  | some k => exact ⟨k, rfl⟩

theorem drop_succ_append_cons (a b : List Char) (c : Char) :
    (a ++ c :: b).drop (a.length + 1) = b := by
  rw [← List.drop_drop]; simp

/-- SSH shape: with an '@' before the last ':', the text after that ':' is
split at its first '/'. -/
theorem parse_git_url_ssh (pre org rest : List Char) (hat : '@' ∈ pre)
    (ho : '/' ∉ org) (hoc : ':' ∉ org) (hrc : ':' ∉ rest) :
    parse_git_url (pre ++ ':' :: (org ++ '/' :: rest)) =
      .ok { org := org, repo := strip_git_suffix rest } := by
  obtain ⟨k, hk⟩ : ∃ k, strstr (pre ++ ':' :: (org ++ '/' :: rest)) ['@'] = some k :=
    strstr_single_of_mem (by simp [hat])
  have hlast : str_find_last (pre ++ ':' :: (org ++ '/' :: rest)) [':'] = some pre.length :=
    str_find_last_single_append pre _ (by simp [hoc, hrc])
  unfold parse_git_url
  simp only [str_find, hk, hlast, drop_succ_append_cons, strstr_single_append org rest ho,
    parse_path_component_split org rest ho]
  simp

/-- HTTP shape: the text after the first '/' that follows "http://" is split
at its first '/'. -/
theorem parse_git_url_http (host org rest : List Char)
    (hh : '/' ∉ host) (ho : '/' ∉ org)
    (hha : '@' ∉ host) (hoa : '@' ∉ org) (hra : '@' ∉ rest) :
    parse_git_url ("http://".toList ++ (host ++ '/' :: (org ++ '/' :: rest))) =
      .ok { org := org, repo := strip_git_suffix rest } := by
  have hat : strstr ("http://".toList ++ (host ++ '/' :: (org ++ '/' :: rest))) ['@'] = none :=
    strstr_single_none (by simp [hha, hoa, hra])
  have hsep : strstr ("http://".toList ++ (host ++ '/' :: (org ++ '/' :: rest))) "://".toList
      = some 4 := by
    simp [strstr, List.isPrefixOf]
  have hdrop : ("http://".toList ++ (host ++ '/' :: (org ++ '/' :: rest))).drop (4 + 3)
      = host ++ '/' :: (org ++ '/' :: rest) := by
    simp
  have hstart : str_starts_with ("http://".toList ++ (host ++ '/' :: (org ++ '/' :: rest)))
      "http://".toList = true := by
    simp [str_starts_with]
  unfold parse_git_url
  simp only [str_find, hat, hsep, hdrop, hstart, strstr_single_append host _ hh,
    drop_succ_append_cons, strstr_single_append org rest ho,
    parse_path_component_split org rest ho]
  simp

/-- HTTPS shape: the text after the first '/' that follows "https://" is split
at its first '/'. -/
theorem parse_git_url_https (host org rest : List Char)
    (hh : '/' ∉ host) (ho : '/' ∉ org)
    (hha : '@' ∉ host) (hoa : '@' ∉ org) (hra : '@' ∉ rest) :
    parse_git_url ("https://".toList ++ (host ++ '/' :: (org ++ '/' :: rest))) =
      .ok { org := org, repo := strip_git_suffix rest } := by
  have hat : strstr ("https://".toList ++ (host ++ '/' :: (org ++ '/' :: rest))) ['@'] = none :=
    strstr_single_none (by simp [hha, hoa, hra])
  have hsep : strstr ("https://".toList ++ (host ++ '/' :: (org ++ '/' :: rest))) "://".toList
      = some 5 := by
    simp [strstr, List.isPrefixOf]
  have hdrop : ("https://".toList ++ (host ++ '/' :: (org ++ '/' :: rest))).drop (5 + 3)
      = host ++ '/' :: (org ++ '/' :: rest) := by
    simp
  have hstart : str_starts_with ("https://".toList ++ (host ++ '/' :: (org ++ '/' :: rest)))
      "https://".toList = true := by
    simp [str_starts_with]
  unfold parse_git_url
  simp only [str_find, hat, hsep, hdrop, hstart, strstr_single_append host _ hh,
    drop_succ_append_cons, strstr_single_append org rest ho,
    parse_path_component_split org rest ho]
  simp

theorem strip_git_suffix_append (r : List Char) :
    strip_git_suffix (r ++ ".git".toList) = r := by
  unfold strip_git_suffix
  rw [if_pos (List.suffix_append r _)]
  simp

theorem strip_git_suffix_of_not {repo : List Char} (h : ¬ ".git".toList <:+ repo) :
    strip_git_suffix repo = repo := by
  unfold strip_git_suffix
  rw [if_neg h]

theorem parse_path_component_org {path : List Char} {id : GitUrl}
    (h : parse_path_component path = some id) : '/' ∉ id.org := by
  unfold parse_path_component str_find at h
  cases hk : strstr path ['/'] with
  | none => simp [hk] at h
  | some k =>
    obtain ⟨a, b, rfl, hna, rfl⟩ := strstr_single_some hk
    simp only [hk, Option.some.injEq] at h
    subst h
    simpa [str_ndup] using hna

theorem parse_path_component_of_slash {path : List Char}
    (h : ¬ (str_find path ['/']).isNone = true) : parse_path_component path ≠ none := by
  unfold parse_path_component
  cases hk : str_find path ['/'] with
  | none => simp [hk] at h
  | some k => simp

/-- Every identity returned by `parse_git_url` comes out of
`parse_path_component`. -/
theorem parse_git_url_ok {url : List Char} {id : GitUrl} (h : parse_git_url url = .ok id) :
    ∃ path, parse_path_component path = some id := by
  unfold parse_git_url at h
  repeat' first
    | split at h
    | (dsimp only at h; split at h)
  all_goals first
    | (cases h; done)
    | (cases h; rename_i hp; exact ⟨_, hp⟩)

/-- The branch reporting "Failed to parse org/repo from path" is never taken. -/
theorem parse_git_url_reason {url : List Char} {e : UrlParseError}
    (h : parse_git_url url = .error e) :
    e.reason ≠ "Failed to parse org/repo from path" := by
  unfold parse_git_url at h
  repeat' first
    | split at h
    | (dsimp only at h; split at h)
  all_goals first
    | (cases h; done)
    | (rename_i hs _ hp; exact absurd hp (parse_path_component_of_slash hs))
    | (cases h; dsimp only; decide)

/-! ## Location parser: settled claims -/

/-- C1: for `user@host:org/repo` and `user@host:org/repo.git` (all four parts
non-empty, no '/' or ':' in org and repo, repo not ending in ".git") parsing
succeeds with the same identity `{org, repo}`. -/
theorem C1_ssh_with_and_without_git_suffix (user host org repo : List Char)
    (_hu : user ≠ []) (_hh : host ≠ []) (_ho : org ≠ []) (_hr : repo ≠ [])
    (hos : '/' ∉ org) (hoc : ':' ∉ org) (_hrs : '/' ∉ repo) (hrc : ':' ∉ repo)
    (hg : ¬ ".git".toList <:+ repo) :
    parse_git_url (user ++ ['@'] ++ host ++ [':'] ++ org ++ ['/'] ++ repo)
        = .ok { org := org, repo := repo } ∧
    parse_git_url (user ++ ['@'] ++ host ++ [':'] ++ org ++ ['/'] ++ repo ++ ".git".toList)
        = .ok { org := org, repo := repo } := by
  have hpre : '@' ∈ user ++ '@' :: host := by simp
  constructor
  · have key := parse_git_url_ssh (user ++ '@' :: host) org repo hpre hos hoc hrc
    rw [strip_git_suffix_of_not hg] at key
    simpa using key
  · have key := parse_git_url_ssh (user ++ '@' :: host) org (repo ++ ".git".toList) hpre hos hoc
      (by simp [hrc])
    rw [strip_git_suffix_append] at key
    simpa using key

/-- C1 at `git@github.com:org/repo` and `git@github.com:org/repo.git`. -/
theorem C1_ssh_with_and_without_git_suffix_witness :
    parse_git_url "git@github.com:org/repo".toList
        = .ok { org := "org".toList, repo := "repo".toList } ∧
    parse_git_url "git@github.com:org/repo.git".toList
        = .ok { org := "org".toList, repo := "repo".toList } :=
  C1_ssh_with_and_without_git_suffix "git".toList "github.com".toList "org".toList "repo".toList
    (by decide) (by decide) (by decide) (by decide) (by decide) (by decide) (by decide)
    (by decide) (by decide)

/-- C2: for `scheme://host/org/repo` with scheme "http" or "https" and host,
org, repo non-empty without '/' and '@', parsing succeeds with organization
`org`; the repository is `repo` without its last four characters when `repo`
ends in ".git" (one suffix only, so "repo.git.git" gives "repo.git"), and
`repo` itself otherwise. -/
theorem C2_http_strips_one_git_suffix (scheme : String) (host org repo : List Char)
    (hs : scheme = "http" ∨ scheme = "https")
    (_hh : host ≠ []) (_ho : org ≠ []) (_hr : repo ≠ [])
    (hhs : '/' ∉ host) (hos : '/' ∉ org) (_hrs : '/' ∉ repo)
    (hha : '@' ∉ host) (hoa : '@' ∉ org) (hra : '@' ∉ repo) :
    (∀ r, repo = r ++ ".git".toList →
      parse_git_url (scheme.toList ++ "://".toList ++ host ++ ['/'] ++ org ++ ['/'] ++ repo)
        = .ok { org := org, repo := r }) ∧
    (¬ ".git".toList <:+ repo →
      parse_git_url (scheme.toList ++ "://".toList ++ host ++ ['/'] ++ org ++ ['/'] ++ repo)
        = .ok { org := org, repo := repo }) := by
  have key : parse_git_url (scheme.toList ++ "://".toList ++ host ++ ['/'] ++ org ++ ['/'] ++ repo)
      = .ok { org := org, repo := strip_git_suffix repo } := by
    rcases hs with rfl | rfl
    · simpa using parse_git_url_http host org repo hhs hos hha hoa hra
    · simpa using parse_git_url_https host org repo hhs hos hha hoa hra
  constructor
  · rintro r rfl
    rw [key, strip_git_suffix_append]
  · intro hg
    rw [key, strip_git_suffix_of_not hg]

/-- C2 at `https://host/org/repo.git.git`: the repository is "repo.git". -/
theorem C2_http_strips_one_git_suffix_witness :
    parse_git_url "https://host/org/repo.git.git".toList
      = .ok { org := "org".toList, repo := "repo.git".toList } :=
  (C2_http_strips_one_git_suffix "https" "host".toList "org".toList "repo.git.git".toList
    (by decide) (by decide) (by decide) (by decide) (by decide) (by decide) (by decide)
    (by decide) (by decide) (by decide)).1 "repo.git".toList rfl

/-- C3, the claim refuted: the three inputs named by the claim are parsed
successfully, with an empty organization or an empty repository, instead of
failing with "Failed to parse org/repo from path". -/
theorem C3_empty_component_counterexample :
    parse_git_url "git@host:/repo".toList = .ok { org := [], repo := "repo".toList } ∧
    parse_git_url "git@host:org/".toList = .ok { org := "org".toList, repo := [] } ∧
    parse_git_url "https://host/org/.git".toList = .ok { org := "org".toList, repo := [] } :=
  ⟨rfl, rfl, rfl⟩

/-- C3 as amended: an input of either shape whose path contains '/' succeeds
with the split at the first '/' (one trailing ".git" stripped from the second
part) also when the organization or the repository so obtained is empty, and
no input makes `parse_git_url` report "Failed to parse org/repo from path". -/
theorem C3_empty_component_accepted :
    (∀ pre org rest : List Char, '@' ∈ pre → '/' ∉ org → ':' ∉ org → ':' ∉ rest →
      parse_git_url (pre ++ [':'] ++ org ++ ['/'] ++ rest)
        = .ok { org := org, repo := strip_git_suffix rest }) ∧
    (∀ (scheme : String) (host org rest : List Char), scheme = "http" ∨ scheme = "https" →
      '/' ∉ host → '/' ∉ org → '@' ∉ host → '@' ∉ org → '@' ∉ rest →
      parse_git_url (scheme.toList ++ "://".toList ++ host ++ ['/'] ++ org ++ ['/'] ++ rest)
        = .ok { org := org, repo := strip_git_suffix rest }) ∧
    (∀ (url : List Char) (e : UrlParseError), parse_git_url url = .error e →
      e.reason ≠ "Failed to parse org/repo from path") := by
  refine ⟨?_, ?_, ?_⟩
  · intro pre org rest hat hos hoc hrc
    simpa using parse_git_url_ssh pre org rest hat hos hoc hrc
  · intro scheme host org rest hs hhs hos hha hoa hra
    rcases hs with rfl | rfl
    · simpa using parse_git_url_http host org rest hhs hos hha hoa hra
    · simpa using parse_git_url_https host org rest hhs hos hha hoa hra
  · intro url e h
    exact parse_git_url_reason h

/-- C3 as amended, at `git@host:/repo`: the empty organization is returned. -/
theorem C3_empty_component_accepted_witness :
    parse_git_url ("git@host".toList ++ [':'] ++ [] ++ ['/'] ++ "repo".toList)
      = .ok { org := [], repo := strip_git_suffix "repo".toList } :=
  C3_empty_component_accepted.1 "git@host".toList [] "repo".toList
    (by decide) (by decide) (by decide) (by decide)

/-- C4, the claim refuted: `git@host:org/sub/repo` is parsed successfully and
the returned repository "sub/repo" contains '/'. -/
theorem C4_repo_separator_counterexample :
    parse_git_url "git@host:org/sub/repo".toList
      = .ok { org := "org".toList, repo := "sub/repo".toList } ∧
    '/' ∈ "sub/repo".toList :=
  ⟨rfl, by decide⟩

/-- C4 as amended: whenever `parse_git_url` succeeds, the returned organization
contains no '/'. -/
theorem C4_org_has_no_separator (url : List Char) (id : GitUrl)
    (h : parse_git_url url = .ok id) : '/' ∉ id.org := by
  obtain ⟨path, hp⟩ := parse_git_url_ok h
  exact parse_path_component_org hp

/-- C4 as amended, at `git@host:org/sub/repo`: the organization "org" has no
'/', the repository "sub/repo" has one. -/
theorem C4_org_has_no_separator_witness :
    parse_git_url "git@host:org/sub/repo".toList
      = .ok { org := "org".toList, repo := "sub/repo".toList } ∧
    '/' ∉ ({ org := "org".toList, repo := "sub/repo".toList } : GitUrl).org :=
  ⟨rfl, C4_org_has_no_separator "git@host:org/sub/repo".toList
    { org := "org".toList, repo := "sub/repo".toList } rfl⟩

/-- C5, the claim refuted: for the input "foo", which has neither '@' nor
"://", the detected format that is reported is not the lower-case text
"local path or invalid format". -/
theorem C5_detected_format_counterexample :
    '@' ∉ "foo".toList ∧ ¬ "://".toList <:+: "foo".toList ∧
    ∃ e, parse_git_url "foo".toList = .error e ∧
      e.detected_format ≠ some "local path or invalid format" :=
  ⟨by decide, by decide, _, rfl, by decide⟩

/-- C5 as amended: an input with neither '@' nor "://" yields no identity, and
the diagnostic has detected format "Local path or invalid format" (capital
L), expected shape "git@host:org/repo OR https://host/org/repo" and no
offending fragment. -/
theorem C5_no_known_format (url : List Char)
    (hat : '@' ∉ url) (hsep : ¬ "://".toList <:+: url) :
    parse_git_url url = .error
      { reason := "URL doesn't match any known git URL format"
        url := url
        detected_format := some "Local path or invalid format"
        found_at := none
        expected := some "git@host:org/repo OR https://host/org/repo" } := by
  have h1 : strstr url ['@'] = none := strstr_single_none hat
  have h2 : strstr url "://".toList = none := (strstr_eq_none_iff _ _).mpr hsep
  unfold parse_git_url
  simp only [str_find, h1, h2]
  rfl

/-- C5 as amended, at the local path "foo/bar". -/
theorem C5_no_known_format_witness :
    parse_git_url "foo/bar".toList = .error
      { reason := "URL doesn't match any known git URL format"
        url := "foo/bar".toList
        detected_format := some "Local path or invalid format"
        found_at := none
        expected := some "git@host:org/repo OR https://host/org/repo" } :=
  C5_no_known_format "foo/bar".toList (by decide) (by decide)

/-- C6: an input that contains '@' and no ':' yields no identity; the
diagnostic has reason "SSH format missing colon separator" and its offending
fragment is the text after the first '@'. -/
theorem C6_ssh_missing_colon (url : List Char) (hat : '@' ∈ url) (hc : ':' ∉ url) :
    ∃ a b, url = a ++ '@' :: b ∧ '@' ∉ a ∧
      parse_git_url url = .error
        { reason := "SSH format missing colon separator"
          url := url
          detected_format := some "SSH (git@...)"
          found_at := some b
          expected := some "git@host:org/repo" } := by
  obtain ⟨k, hk⟩ := strstr_single_of_mem hat
  obtain ⟨a, b, rfl, hna, rfl⟩ := strstr_single_some hk
  refine ⟨a, b, rfl, hna, ?_⟩
  have hlast : str_find_last (a ++ '@' :: b) [':'] = none := str_find_last_single_none hc
  unfold parse_git_url
  simp [str_find, hk, hlast, drop_succ_append_cons]

/-- C6 at `git@host`. -/
theorem C6_ssh_missing_colon_witness :
    ∃ a b, "git@host".toList = a ++ '@' :: b ∧ '@' ∉ a ∧
      parse_git_url "git@host".toList = .error
        { reason := "SSH format missing colon separator"
          url := "git@host".toList
          detected_format := some "SSH (git@...)"
          found_at := some b
          expected := some "git@host:org/repo" } :=
  C6_ssh_missing_colon "git@host".toList (by decide) (by decide)

/-- C7: an input `scheme://rest` with scheme "http" or "https", no '@' and no
'/' in `rest` yields no identity; the diagnostic has reason "Missing path
after hostname" (which, letter case apart, contains "missing path after
hostname"), the scheme as detected format and `rest` as offending fragment. -/
theorem C7_http_missing_path (scheme : String) (rest : List Char)
    (hs : scheme = "http" ∨ scheme = "https") (hat : '@' ∉ rest) (hsl : '/' ∉ rest) :
    parse_git_url (scheme.toList ++ "://".toList ++ rest) = .error
      { reason := "Missing path after hostname"
        url := scheme.toList ++ "://".toList ++ rest
        detected_format := some scheme
        found_at := some rest
        expected := some "host/org/repo" } ∧
    "missing path after hostname".toList <:+:
      "Missing path after hostname".toList.map Char.toLower := by
  refine ⟨?_, by decide⟩
  have hnone : strstr rest ['/'] = none := strstr_single_none hsl
  rcases hs with rfl | rfl
  · have h1 : strstr ("http".toList ++ "://".toList ++ rest) ['@'] = none :=
      strstr_single_none (by simp [hat])
    have h2 : strstr ("http".toList ++ "://".toList ++ rest) "://".toList = some 4 := by
      simp [strstr, List.isPrefixOf]
    have h3 : ("http".toList ++ "://".toList ++ rest).drop (4 + 3) = rest := by simp
    have h4 : str_starts_with ("http".toList ++ "://".toList ++ rest) "http://".toList
        = true := by simp [str_starts_with]
    have h5 : str_starts_with ("http".toList ++ "://".toList ++ rest) "https://".toList
        = false := by simp [str_starts_with]
    unfold parse_git_url
    simp only [str_find, h1, h2, h3, h4, h5, hnone]
    simp
  · have h1 : strstr ("https".toList ++ "://".toList ++ rest) ['@'] = none :=
      strstr_single_none (by simp [hat])
    have h2 : strstr ("https".toList ++ "://".toList ++ rest) "://".toList = some 5 := by
      simp [strstr, List.isPrefixOf]
    have h3 : ("https".toList ++ "://".toList ++ rest).drop (5 + 3) = rest := by simp
    have h4 : str_starts_with ("https".toList ++ "://".toList ++ rest) "https://".toList
        = true := by simp [str_starts_with]
    unfold parse_git_url
    simp only [str_find, h1, h2, h3, h4, hnone]
    simp

/-- C7 at `https://host`. -/
theorem C7_http_missing_path_witness :
    parse_git_url "https://host".toList = .error
      { reason := "Missing path after hostname"
        url := "https://host".toList
        detected_format := some "https"
        found_at := some "host".toList
        expected := some "host/org/repo" } :=
  (C7_http_missing_path "https" "host".toList (by decide) (by decide) (by decide)).1

/-! ## Progress lines: auxiliary facts -/

theorem parse_git_progress_eq (line : List Char) (st : ProgressBar) :
    parse_git_progress line st =
      match phase_of_line line with
      | some lbl => apply_info (parse_git_percentage line) { st with phase := lbl }
      | none => st := by
  unfold parse_git_progress phase_of_line phase_markers str_find
  simp only [List.find?, strstr_isSome_iff]
  by_cases h1 : "Counting objects:".toList <:+: line
  · simp only [h1, if_true, decide_True, Option.map_some']
  · by_cases h2 : "Compressing objects:".toList <:+: line
    · simp only [h1, h2, if_true, if_false, decide_True, decide_False, Option.map_some']
    · by_cases h3 : "Receiving objects:".toList <:+: line
      · simp only [h1, h2, h3, if_true, if_false, decide_True, decide_False, Option.map_some']
      · by_cases h4 : "Resolving deltas:".toList <:+: line
        · simp only [h1, h2, h3, h4, if_true, if_false, decide_True, decide_False,
            Option.map_some']
        · simp only [h1, h2, h3, h4, if_false, decide_False, Option.map_none']

theorem apply_info_width (info : Option GitProgressInfo) (st : ProgressBar) :
    (apply_info info st).width = st.width := by
  cases info <;> rfl

theorem parse_git_progress_width (line : List Char) (st : ProgressBar) :
    (parse_git_progress line st).width = st.width := by
  rw [parse_git_progress_eq]
  cases phase_of_line line with
  | none => rfl
  | some lbl => simp [apply_info_width]

theorem isdigit_ne {d x : Char} (hd : isdigit d = true) (hx : isdigit x = false) : d ≠ x := by
  rintro rfl
  simp [hd] at hx

theorem isdigit_not_trimSpace {d : Char} (hd : isdigit d = true) : trimSpace d = false := by
  have h1 := isdigit_ne hd (x := ' ') (by decide)
  have h2 := isdigit_ne hd (x := '\t') (by decide)
  have h3 := isdigit_ne hd (x := '\n') (by decide)
  have h4 := isdigit_ne hd (x := '\r') (by decide)
  simp [trimSpace, h1, h2, h3, h4]

theorem isdigit_not_isspace {d : Char} (hd : isdigit d = true) : isspace d = false := by
  have h1 := isdigit_ne hd (x := ' ') (by decide)
  have h2 := isdigit_ne hd (x := '\t') (by decide)
  have h3 := isdigit_ne hd (x := '\n') (by decide)
  have h4 := isdigit_ne hd (x := '\r') (by decide)
  have h5 := isdigit_ne hd (x := '\x0b') (by decide)
  have h6 := isdigit_ne hd (x := '\x0c') (by decide)
  simp [isspace, h1, h2, h3, h4, h5, h6]

theorem dropWhile_of_head {p : Char → Bool} {l : List Char} (hl : l ≠ [])
    (h : p (l.head hl) = false) : l.dropWhile p = l := by
  cases l with
  | nil => exact absurd rfl hl
  | cons x xs => simp at h; simp [List.dropWhile, h]

theorem str_trim_padded (ws1 c ws2 : List Char)
    (h1 : ∀ x ∈ ws1, trimSpace x = true) (h2 : ∀ x ∈ ws2, trimSpace x = true)
    (hc : c ≠ []) (hd : ∀ d ∈ c, isdigit d = true) :
    str_trim (ws1 ++ c ++ ws2) = c := by
  unfold str_trim
  have hhead : trimSpace (c.head hc) = false := isdigit_not_trimSpace (hd _ (List.head_mem hc))
  have hrev : c.reverse ≠ [] := by simpa using hc
  have hlast : trimSpace (c.reverse.head hrev) = false :=
    isdigit_not_trimSpace (hd _ (List.mem_reverse.mp (List.head_mem hrev)))
  rw [List.append_assoc, List.dropWhile_append_of_pos h1]
  have e1 : (c ++ ws2).dropWhile trimSpace = c ++ ws2 :=
    dropWhile_of_head (by simp [hc]) (by simpa [List.head_append_of_ne_nil hc] using hhead)
  rw [e1, List.reverse_append, List.dropWhile_append_of_pos (by simpa using h2),
    dropWhile_of_head hrev hlast, List.reverse_reverse]

theorem str_to_size_digits (c : List Char) (hc : c ≠ []) (hd : ∀ d ∈ c, isdigit d = true)
    (hv : digitsValue c < 2 ^ 64) : str_to_size c = some (digitsValue c) := by
  have hhead : isdigit (c.head hc) = true := hd _ (List.head_mem hc)
  have e1 : c.dropWhile isspace = c := dropWhile_of_head hc (isdigit_not_isspace hhead)
  have e2 : c.takeWhile isdigit = c := by
    rw [List.takeWhile_eq_self_iff]; exact hd
  have e3 : c.dropWhile isdigit = [] := by
    rw [List.dropWhile_eq_nil_iff]; exact hd
  obtain ⟨x, xs, rfl⟩ := List.exists_cons_of_ne_nil hc
  have hm : x ≠ '-' := isdigit_ne (by simpa using hhead) (by decide)
  have hp : x ≠ '+' := isdigit_ne (by simpa using hhead) (by decide)
  have hle : ¬ ULONG_MAX < digitsValue (x :: xs) := by
    unfold ULONG_MAX; omega
  unfold str_to_size strtoul
  simp only [e1, hm, hp, if_false, e2, e3, hle]
  simp
theorem parse_git_percentage_segment (head cur tot tail : List Char)
    (hhead : '(' ∉ head) (hcur : ')' ∉ cur) (htot : ')' ∉ tot) (hslash : '/' ∉ cur) :
    parse_git_percentage (head ++ '(' :: ((cur ++ '/' :: tot) ++ ')' :: tail)) =
      match str_to_size (str_trim cur) with
      | none => none
      | some current =>
        match str_to_size (str_trim (cut_at_comma tot)) with
        | none => none
        | some total => some { current := current, total := total } := by
  have h_open : strstr (head ++ '(' :: ((cur ++ '/' :: tot) ++ ')' :: tail)) ['(']
      = some head.length := strstr_single_append head _ hhead
  have h_drop : (head ++ '(' :: ((cur ++ '/' :: tot) ++ ')' :: tail)).drop head.length
      = ('(' :: (cur ++ '/' :: tot)) ++ ')' :: tail := by simp
  have h_close : strstr (('(' :: (cur ++ '/' :: tot)) ++ ')' :: tail) [')']
      = some ((cur ++ '/' :: tot).length + 1) :=
    strstr_single_append ('(' :: (cur ++ '/' :: tot)) tail (by simp [hcur, htot])
  have h_seg : ((cur ++ '/' :: tot) ++ ')' :: tail).take ((cur ++ '/' :: tot).length + 1 - 1)
      = cur ++ '/' :: tot := by
    rw [Nat.add_sub_cancel, List.take_left']
    rfl
  have h_slash : strstr (cur ++ '/' :: tot) ['/'] = some cur.length :=
    strstr_single_append cur tot hslash
  have h_cur : (cur ++ '/' :: tot).take cur.length = cur := List.take_left' rfl
  unfold parse_git_percentage
  simp only [str_find, str_ndup, h_open, h_drop, drop_succ_append_cons, h_close, h_seg,
    h_slash, h_cur]
  rfl

theorem blank_trimSpace {ws : List Char} (h : ∀ x ∈ ws, x = ' ' ∨ x = '\t') :
    ∀ x ∈ ws, trimSpace x = true := by
  intro x hx
  rcases h x hx with rfl | rfl <;> decide

theorem blank_not_mem {ws : List Char} (h : ∀ x ∈ ws, x = ' ' ∨ x = '\t') {ch : Char}
    (h1 : ch ≠ ' ') (h2 : ch ≠ '\t') : ch ∉ ws := by
  intro hmem
  rcases h ch hmem with e | e
  · exact h1 e
  · exact h2 e

theorem digits_not_mem {c : List Char} (hd : ∀ d ∈ c, isdigit d = true) {ch : Char}
    (hch : isdigit ch = false) : ch ∉ c := by
  intro hmem
  rw [hd ch hmem] at hch
  cases hch

theorem cut_at_comma_padded (ws3 t ws4 extra : List Char)
    (h3 : ∀ x ∈ ws3, x = ' ' ∨ x = '\t') (h4 : ∀ x ∈ ws4, x = ' ' ∨ x = '\t')
    (hd : ∀ d ∈ t, isdigit d = true) (hextra : extra = [] ∨ extra.head? = some ',') :
    cut_at_comma (ws3 ++ t ++ ws4 ++ extra) = ws3 ++ t ++ ws4 := by
  have hno : ',' ∉ ws3 ++ t ++ ws4 := by
    have a3 : ',' ∉ ws3 := blank_not_mem h3 (by decide) (by decide)
    have a4 : ',' ∉ ws4 := blank_not_mem h4 (by decide) (by decide)
    have at' : ',' ∉ t := digits_not_mem hd (by decide)
    simp [a3, a4, at']
  unfold cut_at_comma str_find
  rcases hextra with rfl | hx
  · rw [List.append_nil, strstr_single_none hno]
  · cases extra with
    | nil => simp at hx
    | cons x e =>
      simp only [List.head?_cons, Option.some.injEq] at hx
      subst hx
      rw [strstr_single_append _ e hno]
      exact List.take_left' rfl

/-- The counters read from a line of the shape `counter_line`. -/
theorem parse_git_percentage_counter_line
    (marker pre mid ws1 c ws2 ws3 t ws4 extra tail : List Char)
    (hmarker : '(' ∉ marker) (hpre : '(' ∉ pre) (hmid : '(' ∉ mid)
    (h1 : ∀ x ∈ ws1, x = ' ' ∨ x = '\t') (h2 : ∀ x ∈ ws2, x = ' ' ∨ x = '\t')
    (h3 : ∀ x ∈ ws3, x = ' ' ∨ x = '\t') (h4 : ∀ x ∈ ws4, x = ' ' ∨ x = '\t')
    (hc : c ≠ []) (hcd : ∀ d ∈ c, isdigit d = true) (hcv : digitsValue c < 2 ^ 64)
    (ht : t ≠ []) (htd : ∀ d ∈ t, isdigit d = true) (htv : digitsValue t < 2 ^ 64)
    (hextra : extra = [] ∨ extra.head? = some ',') (hex : ')' ∉ extra) :
    parse_git_percentage (counter_line marker pre mid ws1 c ws2 ws3 t ws4 extra tail) =
      some { current := digitsValue c, total := digitsValue t } := by
  have hline : counter_line marker pre mid ws1 c ws2 ws3 t ws4 extra tail =
      (pre ++ marker ++ mid) ++
        '(' :: (((ws1 ++ c ++ ws2) ++ '/' :: (ws3 ++ t ++ ws4 ++ extra)) ++ ')' :: tail) := by
    simp [counter_line]
  have hcur : ')' ∉ ws1 ++ c ++ ws2 := by
    have a1 : ')' ∉ ws1 := blank_not_mem h1 (by decide) (by decide)
    have a2 : ')' ∉ ws2 := blank_not_mem h2 (by decide) (by decide)
    have a3 : ')' ∉ c := digits_not_mem hcd (by decide)
    simp [a1, a2, a3]
  have htot : ')' ∉ ws3 ++ t ++ ws4 ++ extra := by
    have a1 : ')' ∉ ws3 := blank_not_mem h3 (by decide) (by decide)
    have a2 : ')' ∉ ws4 := blank_not_mem h4 (by decide) (by decide)
    have a3 : ')' ∉ t := digits_not_mem htd (by decide)
    simp [a1, a2, a3, hex]
  have hslash : '/' ∉ ws1 ++ c ++ ws2 := by
    have a1 : '/' ∉ ws1 := blank_not_mem h1 (by decide) (by decide)
    have a2 : '/' ∉ ws2 := blank_not_mem h2 (by decide) (by decide)
    have a3 : '/' ∉ c := digits_not_mem hcd (by decide)
    simp [a1, a2, a3]
  rw [hline, parse_git_percentage_segment _ _ _ _ (by simp [hpre, hmarker, hmid]) hcur htot hslash,
    str_trim_padded ws1 c ws2 (blank_trimSpace h1) (blank_trimSpace h2) hc hcd,
    str_to_size_digits c hc hcd hcv, cut_at_comma_padded ws3 t ws4 extra h3 h4 htd hextra,
    str_trim_padded ws3 t ws4 (blank_trimSpace h3) (blank_trimSpace h4) ht htd,
    str_to_size_digits t ht htd htv]

theorem parse_git_percentage_no_open {line : List Char} (h : '(' ∉ line) :
    parse_git_percentage line = none := by
  unfold parse_git_percentage str_find
  rw [strstr_single_none h]

theorem parse_git_percentage_no_close (head rest : List Char) (hhead : '(' ∉ head)
    (hrest : ')' ∉ rest) : parse_git_percentage (head ++ '(' :: rest) = none := by
  have h_open : strstr (head ++ '(' :: rest) ['('] = some head.length :=
    strstr_single_append head _ hhead
  have h_drop : (head ++ '(' :: rest).drop head.length = '(' :: rest := by simp
  have h_close : strstr ('(' :: rest) [')'] = none := strstr_single_none (by simp [hrest])
  unfold parse_git_percentage
  simp only [str_find, h_open, h_drop, h_close]

theorem parse_git_percentage_no_slash (head seg tail : List Char) (hhead : '(' ∉ head)
    (hseg : ')' ∉ seg) (hslash : '/' ∉ seg) :
    parse_git_percentage (head ++ '(' :: (seg ++ ')' :: tail)) = none := by
  have h_open : strstr (head ++ '(' :: (seg ++ ')' :: tail)) ['('] = some head.length :=
    strstr_single_append head _ hhead
  have h_drop : (head ++ '(' :: (seg ++ ')' :: tail)).drop head.length
      = ('(' :: seg) ++ ')' :: tail := by simp
  have h_close : strstr (('(' :: seg) ++ ')' :: tail) [')'] = some (seg.length + 1) :=
    strstr_single_append ('(' :: seg) tail (by simp [hseg])
  have h_seg : (seg ++ ')' :: tail).take (seg.length + 1 - 1) = seg := by
    rw [Nat.add_sub_cancel, List.take_left']
    rfl
  unfold parse_git_percentage
  simp only [str_find, str_ndup, h_open, h_drop, drop_succ_append_cons, h_close, h_seg,
    strstr_single_none hslash]

theorem phase_of_line_first (i : Fin 4) (line : List Char)
    (hin : (phase_markers.get i).1 <:+: line)
    (hfirst : ∀ j : Fin 4, j < i → ¬ (phase_markers.get j).1 <:+: line) :
    phase_of_line line = some (phase_markers.get i).2 := by
  have h0 := hfirst 0
  have h1 := hfirst 1
  have h2 := hfirst 2
  unfold phase_of_line
  fin_cases i
  · simp only [phase_markers, List.find?] at hin ⊢
    simp only [List.get] at hin
    simp only [hin, decide_True, Option.map_some']
    rfl
  · have a0 := h0 (by decide)
    simp only [phase_markers, List.get] at hin a0
    simp only [phase_markers, List.find?, a0, hin, decide_True, decide_False, Option.map_some']
    rfl
  · have a0 := h0 (by decide)
    have a1 := h1 (by decide)
    simp only [phase_markers, List.get] at hin a0 a1
    simp only [phase_markers, List.find?, a0, a1, hin, decide_True, decide_False,
      Option.map_some']
    rfl
  · have a0 := h0 (by decide)
    have a1 := h1 (by decide)
    have a2 := h2 (by decide)
    simp only [phase_markers, List.get] at hin a0 a1 a2
    simp only [phase_markers, List.find?, a0, a1, a2, hin, decide_True, decide_False,
      Option.map_some']
    rfl

theorem phase_of_line_isSome (line marker : List Char)
    (hm : marker ∈ phase_markers.map Prod.fst) (hin : marker <:+: line) :
    ∃ lbl, phase_of_line line = some lbl := by
  unfold phase_of_line
  cases hf : phase_markers.find? (fun m => decide (m.1 <:+: line)) with
  | some m => exact ⟨m.2, rfl⟩
  | none =>
    rw [List.find?_eq_none] at hf
    obtain ⟨m, hmem, rfl⟩ := List.mem_map.mp hm
    exact absurd (by simpa using hin) (hf m hmem)

/-! ## Progress lines: settled claims -/

/-- C8, the claim refuted: "Receiving objects: (1/2) Counting objects:" has the
stated shape with marker "Receiving objects:", yet the phase becomes the label
of "Counting objects:", which also occurs in the line and is tested first. -/
theorem C8_other_marker_counterexample :
    counter_line "Receiving objects:".toList [] " ".toList [] "1".toList [] [] "2".toList [] []
        " Counting objects:".toList
      = "Receiving objects: (1/2) Counting objects:".toList ∧
    parse_git_progress "Receiving objects: (1/2) Counting objects:".toList
        { total := 100, current := 0, phase := "", width := 40 }
      = { total := 2, current := 1, phase := "Counting  ", width := 40 } ∧
    "Counting  " ≠ "Receiving " :=
  ⟨rfl, rfl, by decide⟩

/-- C8 as amended: on a line `pre marker mid ( ws c ws / ws t ws extra ) tail`
(marker one of the four, no '(' in pre and mid, c and t non-empty digit runs
below 2^64, blanks of spaces and tabs, extra empty or starting with ',' and
without ')') `parse_git_progress` sets current to the value of c and total to
the value of t, whatever extra is; the phase becomes the label of the first
marker, in the order tested, that occurs anywhere in the line, which is the
label of `marker` when no marker listed before it occurs in the line. -/
theorem C8_counters_of_progress_line (i : Fin 4)
    (pre mid ws1 c ws2 ws3 t ws4 extra tail : List Char) (st : ProgressBar)
    (hpre : '(' ∉ pre) (hmid : '(' ∉ mid)
    (h1 : ∀ x ∈ ws1, x = ' ' ∨ x = '\t') (h2 : ∀ x ∈ ws2, x = ' ' ∨ x = '\t')
    (h3 : ∀ x ∈ ws3, x = ' ' ∨ x = '\t') (h4 : ∀ x ∈ ws4, x = ' ' ∨ x = '\t')
    (hc : c ≠ []) (hcd : ∀ d ∈ c, isdigit d = true) (hcv : digitsValue c < 2 ^ 64)
    (ht : t ≠ []) (htd : ∀ d ∈ t, isdigit d = true) (htv : digitsValue t < 2 ^ 64)
    (hextra : extra = [] ∨ extra.head? = some ',') (hex : ')' ∉ extra) :
    (parse_git_progress
        (counter_line (phase_markers.get i).1 pre mid ws1 c ws2 ws3 t ws4 extra tail) st).current
      = digitsValue c ∧
    (parse_git_progress
        (counter_line (phase_markers.get i).1 pre mid ws1 c ws2 ws3 t ws4 extra tail) st).total
      = digitsValue t ∧
    phase_of_line (counter_line (phase_markers.get i).1 pre mid ws1 c ws2 ws3 t ws4 extra tail)
      = some (parse_git_progress
          (counter_line (phase_markers.get i).1 pre mid ws1 c ws2 ws3 t ws4 extra tail) st).phase ∧
    ((∀ j : Fin 4, j < i → ¬ (phase_markers.get j).1 <:+:
          counter_line (phase_markers.get i).1 pre mid ws1 c ws2 ws3 t ws4 extra tail) →
      (parse_git_progress
          (counter_line (phase_markers.get i).1 pre mid ws1 c ws2 ws3 t ws4 extra tail) st).phase
        = (phase_markers.get i).2) := by
  have hmarker : '(' ∉ (phase_markers.get i).1 := by
    fin_cases i <;> decide
  have hin : (phase_markers.get i).1 <:+:
      counter_line (phase_markers.get i).1 pre mid ws1 c ws2 ws3 t ws4 extra tail :=
    ⟨pre, mid ++ ['('] ++ ws1 ++ c ++ ws2 ++ ['/'] ++ ws3 ++ t ++ ws4 ++ extra ++ [')'] ++ tail,
      by simp [counter_line]⟩
  have hinfo := parse_git_percentage_counter_line (phase_markers.get i).1 pre mid ws1 c ws2 ws3 t
    ws4 extra tail hmarker hpre hmid h1 h2 h3 h4 hc hcd hcv ht htd htv hextra hex
  obtain ⟨lbl, hlbl⟩ := phase_of_line_isSome _ (phase_markers.get i).1
    (List.mem_map.mpr ⟨_, List.get_mem _ _ _, rfl⟩) hin
  have hres : parse_git_progress
      (counter_line (phase_markers.get i).1 pre mid ws1 c ws2 ws3 t ws4 extra tail) st
      = { st with phase := lbl, current := digitsValue c, total := digitsValue t } := by
    rw [parse_git_progress_eq, hlbl, hinfo]
    rfl
  rw [hres]
  refine ⟨rfl, rfl, hlbl, ?_⟩
  intro hfirst
  have := phase_of_line_first i _ hin hfirst
  rw [hlbl] at this
  exact Option.some.inj this

/-- C8 as amended, at "Receiving objects:  42% (420/1000), 1.2 MiB | ...":
current 420, total 1000, phase "Receiving ". -/
theorem C8_counters_of_progress_line_witness :
    (parse_git_progress "Receiving objects:  42% (420/1000), 1.2 MiB | ...".toList
      { total := 100, current := 0, phase := "", width := 40 }).current = 420 ∧
    (parse_git_progress "Receiving objects:  42% (420/1000), 1.2 MiB | ...".toList
      { total := 100, current := 0, phase := "", width := 40 }).total = 1000 ∧
    (parse_git_progress "Receiving objects:  42% (420/1000), 1.2 MiB | ...".toList
      { total := 100, current := 0, phase := "", width := 40 }).phase = "Receiving " :=
  have h := C8_counters_of_progress_line 2 [] "  42% ".toList [] "420".toList [] []
    "1000".toList [] [] ", 1.2 MiB | ...".toList
    { total := 100, current := 0, phase := "", width := 40 }
    (by decide) (by decide) (by decide) (by decide) (by decide) (by decide)
    (by decide) (by decide) (by decide) (by decide) (by decide) (by decide)
    (by decide) (by decide)
  ⟨h.1, h.2.1, h.2.2.2 (by decide)⟩

/-- C9, the claim refuted: on "Receiving objects: (abc/def)" the counters are
not parsed, yet the phase label changes from "" to "Receiving ". -/
theorem C9_phase_changes_counterexample :
    parse_git_percentage "Receiving objects: (abc/def)".toList = none ∧
    parse_git_progress "Receiving objects: (abc/def)".toList
        { total := 100, current := 0, phase := "", width := 40 }
      = { total := 100, current := 0, phase := "Receiving ", width := 40 } ∧
    "Receiving " ≠ "" :=
  ⟨rfl, rfl, by decide⟩

/-- C9 as amended: when a line contains a phase marker and its counters are
not parsed (`parse_git_percentage` fails), `parse_git_progress` leaves
current, total and width as they were and sets the phase to the label of the
first marker, in the order tested, that occurs in the line. -/
theorem C9_failed_counters_keep_counts (line : List Char) (st : ProgressBar)
    (hmarker : ∃ m ∈ phase_markers, m.1 <:+: line)
    (hfail : parse_git_percentage line = none) :
    (parse_git_progress line st).current = st.current ∧
    (parse_git_progress line st).total = st.total ∧
    (parse_git_progress line st).width = st.width ∧
    phase_of_line line = some (parse_git_progress line st).phase := by
  obtain ⟨m, hm, hin⟩ := hmarker
  obtain ⟨lbl, hlbl⟩ := phase_of_line_isSome line m.1 (List.mem_map.mpr ⟨m, hm, rfl⟩) hin
  have hres : parse_git_progress line st = { st with phase := lbl } := by
    rw [parse_git_progress_eq, hlbl, hfail]
    rfl
  rw [hres]
  exact ⟨rfl, rfl, rfl, hlbl⟩

/-- C9 as amended, at "Receiving objects: (abc/def)" with prior counters 7 of
9: they are kept and the phase is "Receiving ". -/
theorem C9_failed_counters_keep_counts_witness :
    (parse_git_progress "Receiving objects: (abc/def)".toList
      { total := 9, current := 7, phase := "Counting  ", width := 40 }).current = 7 ∧
    (parse_git_progress "Receiving objects: (abc/def)".toList
      { total := 9, current := 7, phase := "Counting  ", width := 40 }).total = 9 ∧
    (parse_git_progress "Receiving objects: (abc/def)".toList
      { total := 9, current := 7, phase := "Counting  ", width := 40 }).width = 40 ∧
    phase_of_line "Receiving objects: (abc/def)".toList
      = some (parse_git_progress "Receiving objects: (abc/def)".toList
          { total := 9, current := 7, phase := "Counting  ", width := 40 }).phase :=
  C9_failed_counters_keep_counts "Receiving objects: (abc/def)".toList
    { total := 9, current := 7, phase := "Counting  ", width := 40 }
    ⟨("Receiving objects:".toList, "Receiving "), by decide, by decide⟩ rfl

/-- C10: a line that contains none of the four markers leaves the whole state
(phase, current, total, width) unchanged, and no line changes the width. -/
theorem C10_unrecognised_line_ignored (line : List Char) (st : ProgressBar) :
    (¬ "Counting objects:".toList <:+: line → ¬ "Compressing objects:".toList <:+: line →
      ¬ "Receiving objects:".toList <:+: line → ¬ "Resolving deltas:".toList <:+: line →
      parse_git_progress line st = st) ∧
    (parse_git_progress line st).width = st.width := by
  refine ⟨?_, parse_git_progress_width line st⟩
  intro h1 h2 h3 h4
  have hnone : phase_of_line line = none := by
    unfold phase_of_line phase_markers
    simp only [List.find?, h1, h2, h3, h4, decide_False, Option.map_none']
  rw [parse_git_progress_eq, hnone]

/-- C10 at "remote: Enumerating objects: 12, done.", which has no marker. -/
theorem C10_unrecognised_line_ignored_witness :
    parse_git_progress "remote: Enumerating objects: 12, done.".toList
        { total := 9, current := 7, phase := "Counting  ", width := 40 }
      = { total := 9, current := 7, phase := "Counting  ", width := 40 } :=
  (C10_unrecognised_line_ignored "remote: Enumerating objects: 12, done.".toList
    { total := 9, current := 7, phase := "Counting  ", width := 40 }).1
    (by decide) (by decide) (by decide) (by decide)

/-! ## Progress renderer: auxiliary facts -/

theorem draw_percent_le (bar : ProgressBar) : draw_percent bar ≤ 100 := by
  unfold draw_percent
  simp only
  split_ifs <;> omega

theorem draw_filled_le (bar : ProgressBar) (hw : bar.width < 2 ^ 64) :
    draw_filled bar ≤ bar.width := by
  have hp := draw_percent_le bar
  unfold draw_filled size_mul
  by_cases hlt : bar.width * draw_percent bar < 2 ^ 64
  · rw [Nat.mod_eq_of_lt hlt]
    apply Nat.div_le_of_le_mul
    nlinarith
  · have h1 : bar.width * draw_percent bar % 2 ^ 64 < 2 ^ 64 := Nat.mod_lt _ (by norm_num)
    have h2 : 2 ^ 64 ≤ bar.width * 100 := by nlinarith
    apply Nat.div_le_of_le_mul
    omega

theorem print_glyphs_eq (glyph : Char) (hi : Nat) :
    ∀ (fuel i : Nat), hi - i ≤ fuel → print_glyphs glyph hi fuel i = List.replicate (hi - i) glyph := by
  intro fuel
  induction fuel with
  | zero =>
    intro i h
    have : hi - i = 0 := by omega
    simp [print_glyphs, this]
  | succ n ih =>
    intro i h
    unfold print_glyphs
    by_cases hlt : i < hi
    · rw [if_pos hlt, ih (i + 1) (by omega)]
      have : hi - i = (hi - (i + 1)) + 1 := by omega
      rw [this, List.replicate_succ]
    · have : hi - i = 0 := by omega
      simp [hlt, this]

/-! ## Progress renderer: settled claims -/

/-- C11, the claim refuted: with current = 184467440737095517 and
total = 184467440737095516 (both below 2^64, current > total > 0) the product
current * 100 wraps and the percentage computed is 0, while the exact
formula gives 100. -/
theorem C11_percent_wrap_counterexample :
    (184467440737095517 : Nat) < 2 ^ 64 ∧
    (0 : Nat) < 184467440737095516 ∧ (184467440737095516 : Nat) < 184467440737095517 ∧
    draw_percent { total := 184467440737095516, current := 184467440737095517,
                   phase := "", width := 40 } = 0 ∧
    min 100 (184467440737095517 * 100 / 184467440737095516) = 100 := by
  decide

/-- C11 as amended: when current * 100 does not exceed the range of `size_t`,
the percentage is min(100, floor(current * 100 / total)) for total > 0 and
100 whenever current > total > 0; for every state, wrapping or not, it is 0
when total = 0. -/
theorem C11_percent_without_wrap (bar : ProgressBar) :
    (bar.current * 100 < 2 ^ 64 → 0 < bar.total →
      draw_percent bar = min 100 (bar.current * 100 / bar.total)) ∧
    (bar.total = 0 → draw_percent bar = 0) ∧
    (bar.current * 100 < 2 ^ 64 → 0 < bar.total → bar.total < bar.current →
      draw_percent bar = 100) := by
  have h1 : bar.current * 100 < 2 ^ 64 → 0 < bar.total →
      draw_percent bar = min 100 (bar.current * 100 / bar.total) := by
    intro hnw ht
    have hmul : size_mul bar.current 100 = bar.current * 100 := Nat.mod_eq_of_lt hnw
    unfold draw_percent
    simp only [hmul, gt_iff_lt, ht, if_true]
    split_ifs <;> omega
  refine ⟨h1, ?_, ?_⟩
  · intro h0
    unfold draw_percent
    simp [h0]
  · intro hnw ht hlt
    rw [h1 hnw ht]
    have : 100 ≤ bar.current * 100 / bar.total := by
      rw [Nat.le_div_iff_mul_le ht]
      nlinarith
    omega

/-- C11 as amended, at current = 1500, total = 1000, where the percentage is
100, and at the wrapping current = 184467440737095517 with total = 0, where
it is 0. -/
theorem C11_percent_without_wrap_witness :
    draw_percent { total := 1000, current := 1500, phase := "", width := 40 } = 100 ∧
    draw_percent { total := 0, current := 184467440737095517, phase := "", width := 40 } = 0 :=
  ⟨(C11_percent_without_wrap { total := 1000, current := 1500, phase := "", width := 40 }).2.2
      (by decide) (by decide) (by decide),
   (C11_percent_without_wrap
      { total := 0, current := 184467440737095517, phase := "", width := 40 }).2.1 rfl⟩

/-- C12: for every state, wrapped product or not, the percentage is at most
100, and with the bar width 40 the filled count is at most the width. -/
theorem C12_percent_and_filled_bounded (bar : ProgressBar) :
    draw_percent bar ≤ 100 ∧ (bar.width = 40 → draw_filled bar ≤ bar.width) := by
  refine ⟨draw_percent_le bar, ?_⟩
  intro hw
  exact draw_filled_le bar (by rw [hw]; norm_num)

/-- C12 at current = 184467440737095517, total = 1, width 40, where
current * 100 wraps to 84: the percentage is 84 and 33 cells are filled. -/
theorem C12_percent_and_filled_bounded_witness :
    draw_percent { total := 1, current := 184467440737095517, phase := "", width := 40 } ≤ 100 ∧
    draw_filled { total := 1, current := 184467440737095517, phase := "", width := 40 } ≤ 40 :=
  ⟨(C12_percent_and_filled_bounded
      { total := 1, current := 184467440737095517, phase := "", width := 40 }).1,
   (C12_percent_and_filled_bounded
      { total := 1, current := 184467440737095517, phase := "", width := 40 }).2 rfl⟩

/-- C13: when width * 100 does not wrap, `draw_progress_bar` writes carriage
return, ESC "[K", the phase label, " [", `filled` filled glyphs and
`width - filled` empty glyphs (together `width` glyphs), "] ", the percentage,
"% (", current, "/", total, ")"; `finish_progress_bar` writes the same text
and one newline. -/
theorem C13_rendered_text (bar : ProgressBar) (hw : bar.width * 100 < 2 ^ 64) :
    draw_progress_bar bar =
      ['\r', '\x1b', '[', 'K'] ++ bar.phase.toList ++ [' ', '[']
        ++ List.replicate (bar.width * draw_percent bar / 100) '█'
        ++ List.replicate (bar.width - bar.width * draw_percent bar / 100) '░'
        ++ [']', ' '] ++ (Nat.repr (draw_percent bar)).toList ++ ['%', ' ', '(']
        ++ (Nat.repr bar.current).toList ++ ['/'] ++ (Nat.repr bar.total).toList ++ [')'] ∧
    (List.replicate (bar.width * draw_percent bar / 100) '█'
        ++ List.replicate (bar.width - bar.width * draw_percent bar / 100) '░').length
      = bar.width ∧
    finish_progress_bar bar = draw_progress_bar bar ++ ['\n'] := by
  have hp := draw_percent_le bar
  have hfilled : draw_filled bar = bar.width * draw_percent bar / 100 := by
    unfold draw_filled size_mul
    rw [Nat.mod_eq_of_lt (by nlinarith)]
  have hle : bar.width * draw_percent bar / 100 ≤ bar.width := by
    apply Nat.div_le_of_le_mul
    nlinarith
  refine ⟨?_, ?_, rfl⟩
  · unfold draw_progress_bar print_size
    simp only [hfilled]
    rw [print_glyphs_eq _ _ _ _ (by omega), print_glyphs_eq _ _ _ _ (by omega)]
    simp
  · simp only [List.length_append, List.length_replicate]
    omega

/-- C13 at phase "Receiving ", 420 of 1000, width 40. -/
theorem C13_rendered_text_witness :
    draw_progress_bar { total := 1000, current := 420, phase := "Receiving ", width := 40 } =
      "\r\x1b[KReceiving  [████████████████░░░░░░░░░░░░░░░░░░░░░░░░] 42% (420/1000)".toList ∧
    finish_progress_bar { total := 1000, current := 420, phase := "Receiving ", width := 40 } =
      "\r\x1b[KReceiving  [████████████████░░░░░░░░░░░░░░░░░░░░░░░░] 42% (420/1000)\n".toList :=
  have h := C13_rendered_text
    { total := 1000, current := 420, phase := "Receiving ", width := 40 } (by decide)
  ⟨h.1.trans (by decide), h.2.2.trans (by decide)⟩

/-! ## Argument scan: auxiliary facts -/

theorem getLast_cons_cases (v : List Char) (rv : List (List Char)) :
    (v :: rv).getLast? = match rv.getLast? with
      | some w => some w
      | none => some v := by
  cases rv with
  | nil => rfl
  | cons x xs =>
    rw [List.getLast?_cons_cons]
    cases h : (x :: xs).getLast? with
    | none => simp at h
    | some w => rfl

theorem scan_outcome_nil (root_dir git_url : Option (List Char)) :
    scan_outcome [] root_dir git_url = .ok (root_dir, git_url) := by
  cases git_url <;> simp [scan_outcome, positionals, root_values]

theorem scan_outcome_dangling (items : List ArgItem) (root_dir git_url : Option (List Char)) :
    scan_outcome (ArgItem.dangling :: items) root_dir git_url = .error 1 := by
  simp [scan_outcome]

theorem scan_outcome_root (v : List Char) (items : List ArgItem)
    (root_dir git_url : Option (List Char)) :
    scan_outcome (ArgItem.root v :: items) root_dir git_url =
      scan_outcome items (some v) git_url := by
  unfold scan_outcome
  have h1 : ArgItem.dangling ∈ ArgItem.root v :: items ↔ ArgItem.dangling ∈ items := by simp
  have h2 : positionals (ArgItem.root v :: items) = positionals items := by
    simp [positionals]
  have h3 : root_values (ArgItem.root v :: items) = v :: root_values items := by
    simp [root_values]
  rw [h2, h3, getLast_cons_cases]
  simp only [h1]
  cases (root_values items).getLast? <;> rfl

theorem scan_outcome_positional (p : List Char) (items : List ArgItem)
    (root_dir git_url : Option (List Char)) :
    scan_outcome (ArgItem.positional p :: items) root_dir git_url =
      if git_url.isNone then scan_outcome items root_dir (some p) else .error 1 := by
  unfold scan_outcome
  have h1 : ArgItem.dangling ∈ ArgItem.positional p :: items ↔ ArgItem.dangling ∈ items := by
    simp
  have h2 : positionals (ArgItem.positional p :: items) = p :: positionals items := by
    simp [positionals]
  have h3 : root_values (ArgItem.positional p :: items) = root_values items := by
    simp [root_values]
  rw [h2, h3]
  simp only [h1]
  cases git_url with
  | none =>
    simp only [Option.toList, List.length_nil, List.length_cons, Option.isNone_none, if_true,
      List.head?_cons, List.length_singleton]
    have e : (2 ≤ 0 + ((positionals items).length + 1)) ↔ (2 ≤ 1 + (positionals items).length) := by
      omega
    simp only [e]
  | some u =>
    have e : 2 ≤ (some u).toList.length + (p :: positionals items).length := by
      simp only [Option.toList, List.length_cons, List.length_nil]
      omega
    simp only [e, or_true, if_true, Option.isNone_some]
    rfl

theorem main_scan_loop_eq (argv : List (List Char)) :
    ∀ (fuel i : Nat) (root_dir git_url : Option (List Char)), argv.length - i ≤ fuel →
      main_scan_loop argv fuel i root_dir git_url =
        scan_outcome (classify_args (argv.drop i)) root_dir git_url := by
  intro fuel
  induction fuel with
  | zero =>
    intro i root_dir git_url h
    have hd : argv.drop i = [] := List.drop_eq_nil_of_le (by omega)
    rw [main_scan_loop, hd, classify_args, scan_outcome_nil]
  | succ n ih =>
    intro i root_dir git_url h
    unfold main_scan_loop
    by_cases hi : i < argv.length
    · have hd : argv.drop i = argv[i] :: argv.drop (i + 1) := List.drop_eq_getElem_cons hi
      have hg : argv.getD i [] = argv[i] := List.getD_eq_getElem _ _ hi
      rw [if_pos hi, hg, hd]
      by_cases hlast : i + 1 ≥ argv.length
      · have hd1 : argv.drop (i + 1) = [] := List.drop_eq_nil_of_le hlast
        rw [hd1, classify_args]
        by_cases hroot : argv[i] = "--root".toList
        · rw [if_pos hroot, if_pos hlast, if_pos hroot, scan_outcome_dangling]
        · rw [if_neg hroot, if_neg hroot, scan_outcome_positional, scan_outcome_nil,
            ih _ _ _ (by omega), hd1, classify_args, scan_outcome_nil]
      · have hi1 : i + 1 < argv.length := by omega
        have hd1 : argv.drop (i + 1) = argv[i + 1] :: argv.drop (i + 1 + 1) :=
          List.drop_eq_getElem_cons hi1
        have hg1 : argv.getD (i + 1) [] = argv[i + 1] := List.getD_eq_getElem _ _ hi1
        by_cases hroot : argv[i] = "--root".toList
        · rw [if_pos hroot, if_neg hlast, hd1, classify_args, if_pos hroot, scan_outcome_root,
            hg1, ih _ _ _ (by omega)]
        · rw [if_neg hroot, hd1, classify_args, if_neg hroot, scan_outcome_positional,
            ih _ _ _ (by omega), hd1]
    · have hd : argv.drop i = [] := List.drop_eq_nil_of_le (by omega)
      rw [if_neg hi, hd, classify_args, scan_outcome_nil]

/-! ## Argument scan: settled claim -/

/-- C14: reading the arguments left to right, each "--root" taking the next
token as its value, `main` exits with code 1 before `parse_git_url` exactly
when a "--root" has no token after it, or there are two or more positionals,
or there is none; otherwise it goes on with the single positional as location
and the value of the last "--root", if any, as root. -/
theorem C14_argument_scan (prog : List Char) (args : List (List Char)) :
    (main_arguments (prog :: args) = .error 1 ↔
      (ArgItem.dangling ∈ classify_args args ∨
        2 ≤ (positionals (classify_args args)).length ∨
        positionals (classify_args args) = [])) ∧
    (∀ code, main_arguments (prog :: args) = .error code → code = 1) ∧
    (∀ p, ArgItem.dangling ∉ classify_args args → positionals (classify_args args) = [p] →
      main_arguments (prog :: args) = .ok (p, (root_values (classify_args args)).getLast?)) := by
  have hscan : main_scan_loop (prog :: args) (prog :: args).length 1 none none =
      scan_outcome (classify_args args) none none := by
    rw [main_scan_loop_eq _ _ _ _ _ (by simp)]
    rfl
  unfold main_arguments
  rw [hscan]
  unfold scan_outcome
  by_cases hbad : ArgItem.dangling ∈ classify_args args ∨
      2 ≤ (none : Option (List Char)).toList.length + (positionals (classify_args args)).length
  · rw [if_pos hbad]
    refine ⟨?_, ?_, ?_⟩
    · constructor
      · intro _
        rcases hbad with h | h
        · exact Or.inl h
        · exact Or.inr (Or.inl (by simpa using h))
      · intro _; rfl
    · intro code h
      cases h
      rfl
    · intro p hd hp
      rcases hbad with h | h
      · exact absurd h hd
      · rw [hp] at h
        simp at h
  · rw [if_neg hbad]
    have hnd : ArgItem.dangling ∉ classify_args args := fun h => hbad (Or.inl h)
    have hlen : (positionals (classify_args args)).length < 2 := by
      by_contra hge
      exact hbad (Or.inr (by simp only [Option.toList, List.length_nil]; omega))
    cases hpos : positionals (classify_args args) with
    | nil =>
      refine ⟨?_, ?_, ?_⟩
      · simp
      · intro code h
        simp at h
        exact h.symm
      · intro p _ hp
        cases hp
    | cons q rest =>
      have hrest : rest = [] := by
        rw [hpos] at hlen
        cases rest with
        | nil => rfl
        | cons _ _ => simp only [List.length_cons] at hlen; omega
      subst hrest
      refine ⟨?_, ?_, ?_⟩
      · simp [hnd]
      · intro code h
        simp at h
      · intro p _ hp
        cases hp
        cases h : (root_values (classify_args args)).getLast? <;> simp

/-- C14 at `prog --root /tmp/x git@host:org/repo`. -/
theorem C14_argument_scan_witness :
    main_arguments ["prog".toList, "--root".toList, "/tmp/x".toList, "git@host:org/repo".toList]
      = .ok ("git@host:org/repo".toList, some "/tmp/x".toList) :=
  (C14_argument_scan "prog".toList
    ["--root".toList, "/tmp/x".toList, "git@host:org/repo".toList]).2.2
    "git@host:org/repo".toList (by decide) (by decide)

/-! ## Directory creation: auxiliary facts -/

theorem candidates_from_end (path : List Char) (p : Nat) (h : ¬ p < path.length) :
    candidates_from path p = [] := by
  have : path.length - p = 0 := by omega
  simp [candidates_from, this]

theorem candidates_from_step (path : List Char) (p : Nat) (h : p < path.length) :
    candidates_from path p =
      if path.getD p NUL = '/' then path.take p :: candidates_from path (p + 1)
      else candidates_from path (p + 1) := by
  have hlen : path.length - p = (path.length - (p + 1)) + 1 := by omega
  unfold candidates_from
  rw [hlen, List.range'_succ]
  rw [List.filter_cons]
  by_cases hc : path.getD p NUL = '/'
  · have hb : (path.getD p NUL == '/') = true := by rw [hc]; rfl
    rw [if_pos hb, if_pos hc, List.map_cons]
  · have hb : ¬ (path.getD p NUL == '/') = true := by
      intro hb
      exact hc (by simpa using hb)
    rw [if_neg hb, if_neg hc]

theorem run_attempts_single (mkdir : Nat → MkdirOutcome) (done : List (List Char))
    (a : List Char) : run_attempts mkdir done [a] = mkdir_final a mkdir done := by
  unfold run_attempts mkdir_final
  split <;> rfl

theorem mkdir_loop_eq (path : List Char) (mkdir : Nat → MkdirOutcome) :
    ∀ (fuel p : Nat) (attempts : List (List Char)), path.length - p ≤ fuel →
      mkdir_loop path mkdir fuel p attempts =
        run_attempts mkdir attempts (candidates_from path p ++ [path]) := by
  intro fuel
  induction fuel with
  | zero =>
    intro p attempts h
    rw [mkdir_loop, candidates_from_end path p (by omega), List.nil_append, run_attempts_single]
  | succ n ih =>
    intro p attempts h
    unfold mkdir_loop
    by_cases hp : p < path.length
    · rw [if_pos hp, candidates_from_step path p hp]
      by_cases hc : path.getD p NUL = '/'
      · rw [if_pos hc, if_pos hc, List.cons_append, run_attempts]
        by_cases hf : mkdir attempts.length = MkdirOutcome.failed
        · rw [if_pos hf, if_pos hf]
        · rw [if_neg hf, if_neg hf, ih _ _ (by omega)]
      · rw [if_neg hc, if_neg hc, ih _ _ (by omega)]
    · rw [if_neg hp, candidates_from_end path p hp, List.nil_append, run_attempts_single]

theorem run_attempts_spec (mkdir : Nat → MkdirOutcome) :
    ∀ (todo done : List (List Char)),
      ((run_attempts mkdir done todo).1 = true ∧
        (run_attempts mkdir done todo).2 = done ++ todo ∧
        ∀ i, i < todo.length → mkdir (done.length + i) ≠ MkdirOutcome.failed) ∨
      ((run_attempts mkdir done todo).1 = false ∧
        ∃ k, k < todo.length ∧ (run_attempts mkdir done todo).2 = done ++ todo.take (k + 1) ∧
          mkdir (done.length + k) = MkdirOutcome.failed ∧
          ∀ i, i < k → mkdir (done.length + i) ≠ MkdirOutcome.failed) := by
  intro todo
  induction todo with
  | nil =>
    intro done
    left
    simp [run_attempts]
  | cons a rest ih =>
    intro done
    unfold run_attempts
    by_cases hf : mkdir done.length = MkdirOutcome.failed
    · right
      rw [if_pos hf]
      exact ⟨rfl, 0, by simp, by simp, by simpa using hf, by intro i hi; omega⟩
    · rw [if_neg hf]
      rcases ih (done ++ [a]) with ⟨h1, h2, h3⟩ | ⟨h1, k, hk, h2, h3, h4⟩
      · left
        refine ⟨h1, by simpa using h2, ?_⟩
        intro i hi
        cases i with
        | zero => simpa using hf
        | succ j =>
          have := h3 j (by simpa using hi)
          simpa [Nat.add_assoc, Nat.add_comm 1 j] using this
      · right
        refine ⟨h1, k + 1, by simpa using hk, by simpa using h2, ?_, ?_⟩
        · simpa [Nat.add_assoc, Nat.add_comm 1 k] using h3
        · intro i hi
          cases i with
          | zero => simpa using hf
          | succ j =>
            have := h4 j (by omega)
            simpa [Nat.add_assoc, Nat.add_comm 1 j] using this

theorem planned_attempts_eq (path : List Char) :
    planned_attempts path = candidates_from path 1 ++ [path] := rfl

/-! ## Directory creation: settled claim -/

/-- C19: for a non-empty path and any outcomes of the `mkdir` calls,
`mkdir_recursive` tries the prefixes before each '/' at index 1 or later and
then the full path, in that order; it either returns success, having tried
all of them with none failing for a reason other than "already exists", or
returns failure, having stopped right after the first attempt that failed for
another reason. For the empty path it returns success without any attempt. -/
theorem C19_mkdir_recursive (path : List Char) (mkdir : Nat → MkdirOutcome) :
    (path ≠ [] →
      ((mkdir_recursive path mkdir).1 = true ∧
        (mkdir_recursive path mkdir).2 = planned_attempts path ∧
        ∀ i, i < (planned_attempts path).length → mkdir i ≠ MkdirOutcome.failed) ∨
      ((mkdir_recursive path mkdir).1 = false ∧
        ∃ k, k < (planned_attempts path).length ∧
          (mkdir_recursive path mkdir).2 = (planned_attempts path).take (k + 1) ∧
          mkdir k = MkdirOutcome.failed ∧
          ∀ i, i < k → mkdir i ≠ MkdirOutcome.failed)) ∧
    mkdir_recursive [] mkdir = (true, []) := by
  refine ⟨?_, rfl⟩
  intro hne
  have hrun : mkdir_recursive path mkdir = run_attempts mkdir [] (planned_attempts path) := by
    unfold mkdir_recursive
    have : path.isEmpty = false := by
      cases path with
      | nil => exact absurd rfl hne
      | cons _ _ => rfl
    rw [this, planned_attempts_eq]
    exact mkdir_loop_eq path mkdir _ _ _ (by omega)
  rw [hrun]
  simpa using run_attempts_spec mkdir (planned_attempts path) []

/-- C19 at "/tmp/x/org" when the second call fails with another error: the
attempts are "/tmp" and "/tmp/x" and the result is failure. -/
theorem C19_mkdir_recursive_witness :
    mkdir_recursive "/tmp/x/org".toList
        (fun n => if n = 1 then MkdirOutcome.failed else MkdirOutcome.eexist)
      = (false, ["/tmp".toList, "/tmp/x".toList]) ∧
    (((mkdir_recursive "/tmp/x/org".toList (fun _ => MkdirOutcome.eexist)).1 = true ∧
        (mkdir_recursive "/tmp/x/org".toList (fun _ => MkdirOutcome.eexist)).2
          = planned_attempts "/tmp/x/org".toList ∧
        ∀ i, i < (planned_attempts "/tmp/x/org".toList).length →
          (fun _ => MkdirOutcome.eexist) i ≠ MkdirOutcome.failed) ∨
      ((mkdir_recursive "/tmp/x/org".toList (fun _ => MkdirOutcome.eexist)).1 = false ∧
        ∃ k, k < (planned_attempts "/tmp/x/org".toList).length ∧
          (mkdir_recursive "/tmp/x/org".toList (fun _ => MkdirOutcome.eexist)).2
            = (planned_attempts "/tmp/x/org".toList).take (k + 1) ∧
          (fun _ => MkdirOutcome.eexist) k = MkdirOutcome.failed ∧
          ∀ i, i < k → (fun _ => MkdirOutcome.eexist) i ≠ MkdirOutcome.failed)) :=
  ⟨by decide,
   (C19_mkdir_recursive "/tmp/x/org".toList (fun _ => MkdirOutcome.eexist)).1 (by decide)⟩

/-! ## Read loop: auxiliary facts -/

theorem is_terminator_iff (c : Char) : is_terminator c = true ↔ (c = '\r' ∨ c = '\n') := by
  simp [is_terminator]

theorem c_string_store (buf : List Char) (pos : Nat) (hpos : pos < buf.length)
    (hnul : NUL ∉ buf.take pos) : c_string (buf.set pos NUL) = buf.take pos := by
  have hset : buf.set pos NUL = buf.take pos ++ NUL :: buf.drop (pos + 1) := by
    rw [List.set_eq_take_append_cons_drop, if_pos hpos]
  have hall : ∀ a ∈ buf.take pos, (fun c => c != NUL) a = true := by
    intro a ha
    have : a ≠ NUL := fun e => hnul (e ▸ ha)
    simpa using this
  unfold c_string
  rw [hset, List.takeWhile_append_of_pos hall]
  simp

theorem read_loop_byte_inv (s : ReadLoopState) (c : Char) (h : ReadInv s) :
    ∃ s1, read_loop_byte s c = some s1 ∧ ReadInv s1 := by
  obtain ⟨hlen, hpos⟩ := h
  have hlt : s.line_pos < s.line_buffer.length := by
    rw [hlen]; unfold LINE_BUFFER_SIZE at hpos ⊢; omega
  unfold read_loop_byte
  by_cases hterm : c = '\r' ∨ c = '\n'
  · rw [if_pos hterm]
    by_cases hp : s.line_pos > 0
    · simp only [hp, if_true, array_store, hlt]
      by_cases hn : c = '\n'
      · simp only [hn, if_true]
        exact ⟨_, rfl, by simpa [ReadInv] using hlen⟩
      · simp only [hn, if_false]
        exact ⟨_, rfl, by simpa [ReadInv] using hlen⟩
    · simp only [hp, if_false]
      by_cases hn : c = '\n'
      · simp only [hn, if_true]
        exact ⟨_, rfl, by simpa [ReadInv] using hlen⟩
      · simp only [hn, if_false]
        exact ⟨_, rfl, hlen, hpos⟩
  · rw [if_neg hterm]
    by_cases hp : s.line_pos < LINE_BUFFER_SIZE - 1
    · simp only [hp, if_true, array_store, hlt]
      refine ⟨_, rfl, by simpa using hlen, ?_⟩
      show s.line_pos + 1 ≤ LINE_BUFFER_SIZE - 1
      omega
    · simp only [hp, if_false]
      exact ⟨_, rfl, hlen, hpos⟩

theorem read_loop_chunk_inv (bytes : List Char) :
    ∀ s, ReadInv s → ∃ s1, read_loop_chunk s bytes = some s1 ∧ ReadInv s1 := by
  induction bytes with
  | nil => intro s h; exact ⟨s, rfl, h⟩
  | cons c cs ih =>
    intro s h
    obtain ⟨s1, h1, hinv⟩ := read_loop_byte_inv s c h
    obtain ⟨s2, h2, hinv2⟩ := ih s1 hinv
    exact ⟨s2, by simp [read_loop_chunk, h1, h2], hinv2⟩

theorem read_loop_inv (chunks : List (List Char)) :
    ∀ s, ReadInv s → ∃ s1, read_loop s chunks = some s1 ∧ ReadInv s1 := by
  induction chunks with
  | nil => intro s h; exact ⟨s, rfl, h⟩
  | cons chunk rest ih =>
    intro s h
    unfold read_loop
    by_cases he : chunk.length ≤ 0
    · rw [if_pos he]; exact ⟨s, rfl, h⟩
    · rw [if_neg he]
      obtain ⟨s1, h1, hinv⟩ := read_loop_chunk_inv chunk s h
      obtain ⟨s2, h2, hinv2⟩ := ih s1 hinv
      exact ⟨s2, by simp [h1, h2], hinv2⟩

theorem read_loop_byte_append (s : ReadLoopState) (acc : List Char) (c : Char)
    (h : Pending acc s) (hc : is_terminator c = false) :
    ∃ s1, read_loop_byte s c = some s1 ∧ Pending (acc ++ [c]) s1 ∧ s1.lines = s.lines ∧
      s1.progress = s.progress ∧ s1.output = s.output := by
  obtain ⟨hlen, hpos, htake⟩ := h
  have hterm : ¬ (c = '\r' ∨ c = '\n') := by
    rw [← is_terminator_iff, hc]; simp
  unfold read_loop_byte
  rw [if_neg hterm]
  by_cases hp : s.line_pos < LINE_BUFFER_SIZE - 1
  · have hp' : s.line_pos < 4095 := hp
    have hacc : acc.length < 4095 := by omega
    have hposeq : s.line_pos = acc.length := by omega
    have hlt : s.line_pos < s.line_buffer.length := by
      rw [hlen]; unfold LINE_BUFFER_SIZE; omega
    simp only [hp, if_true, array_store, hlt]
    refine ⟨_, rfl, ⟨by simpa using hlen, ?_, ?_⟩, rfl, rfl, rfl⟩
    · show s.line_pos + 1 = min 4095 (acc ++ [c]).length
      rw [List.length_append, List.length_singleton]; omega
    · show (s.line_buffer.set s.line_pos c).take (s.line_pos + 1) = (acc ++ [c]).take 4095
      rw [List.set_eq_take_append_cons_drop, if_pos hlt, htake, hposeq]
      have e1 : acc.take 4095 = acc := List.take_of_length_le (by omega)
      have e2 : (acc ++ [c]).take 4095 = acc ++ [c] :=
        List.take_of_length_le (by rw [List.length_append, List.length_singleton]; omega)
      rw [e1, e2]
      have e3 : (acc ++ c :: List.drop (acc.length + 1) s.line_buffer).take (acc.length + 1)
          = acc ++ [c] := by
        rw [List.take_append_eq_append_take]
        simp
      exact e3
  · have hp' : ¬ s.line_pos < 4095 := hp
    have hacc : 4095 ≤ acc.length := by omega
    simp only [hp, if_false]
    refine ⟨s, rfl, ⟨hlen, ?_, ?_⟩, rfl, rfl, rfl⟩
    · rw [List.length_append, List.length_singleton]; omega
    · rw [htake, List.take_append_of_le_length hacc]

theorem read_loop_byte_flush (s : ReadLoopState) (acc : List Char) (c : Char)
    (h : Pending acc s) (hnul : NUL ∉ acc) (hc : is_terminator c = true) :
    ∃ s1, read_loop_byte s c = some s1 ∧ Pending [] s1 ∧
      s1.lines = s.lines ++ (if acc.isEmpty then [] else [acc.take 4095]) ∧
      (s1.progress, s1.output) =
        (if acc.isEmpty then [] else [acc.take 4095]).foldl dispatch_line
          (s.progress, s.output) := by
  obtain ⟨hlen, hpos, htake⟩ := h
  have hterm : c = '\r' ∨ c = '\n' := (is_terminator_iff c).mp hc
  have hlt : s.line_pos < s.line_buffer.length := by
    rw [hlen]; unfold LINE_BUFFER_SIZE; omega
  unfold read_loop_byte
  rw [if_pos hterm]
  by_cases hp : s.line_pos > 0
  · have hne : acc.isEmpty = false := by
      cases acc with
      | nil => simp at hpos; omega
      | cons _ _ => rfl
    have hline : c_string (s.line_buffer.set s.line_pos NUL) = acc.take 4095 := by
      rw [c_string_store _ _ hlt (by rw [htake]; exact fun hm => hnul (List.mem_of_mem_take hm)),
        htake]
    simp only [hp, if_true, array_store, hlt, hline, hne]
    by_cases hn : c = '\n'
    · simp only [hn, if_true]
      exact ⟨_, rfl, ⟨by simpa using hlen, rfl, rfl⟩, rfl, rfl⟩
    · simp only [hn, if_false]
      exact ⟨_, rfl, ⟨by simpa using hlen, rfl, rfl⟩, rfl, rfl⟩
  · have hzero : s.line_pos = 0 := by omega
    have he : acc.isEmpty = true := by
      cases acc with
      | nil => rfl
      | cons _ _ => rw [hzero] at hpos; simp only [List.length_cons] at hpos; omega
    simp only [hp, if_false, he, if_true, List.append_nil]
    by_cases hn : c = '\n'
    · simp only [hn, if_true]
      exact ⟨_, rfl, ⟨hlen, rfl, rfl⟩, rfl, rfl⟩
    · simp only [hn, if_false]
      refine ⟨s, rfl, ⟨hlen, ?_, ?_⟩, rfl, rfl⟩
      · rw [hzero]; rfl
      · rw [hzero]; rfl

theorem terminated_lines_no_terminator (acc : List Char)
    (h : ∀ x ∈ acc, is_terminator x = false) : terminated_lines acc = [] := by
  unfold terminated_lines
  rw [List.splitOnP_eq_single is_terminator acc (by intro x hx; simp [h x hx])]
  rfl

theorem terminated_lines_flush (acc cs : List Char) (c : Char)
    (h : ∀ x ∈ acc, is_terminator x = false) (hc : is_terminator c = true) :
    terminated_lines (acc ++ c :: cs) =
      (if acc.isEmpty then [] else [acc.take 4095]) ++ terminated_lines cs := by
  unfold terminated_lines
  rw [List.splitOnP_first is_terminator acc (by intro x hx; simp [h x hx]) c hc cs,
    List.dropLast_cons_of_ne_nil (List.splitOnP_ne_nil _ _), List.filter_cons]
  cases acc with
  | nil => simp
  | cons a as => simp

theorem read_loop_chunk_lines (bytes : List Char) :
    ∀ (s : ReadLoopState) (acc : List Char), Pending acc s → NUL ∉ acc →
      (∀ x ∈ acc, is_terminator x = false) → NUL ∉ bytes →
      ∃ s1, read_loop_chunk s bytes = some s1 ∧
        s1.lines = s.lines ++ terminated_lines (acc ++ bytes) ∧
        (s1.progress, s1.output) =
          (terminated_lines (acc ++ bytes)).foldl dispatch_line (s.progress, s.output) := by
  induction bytes with
  | nil =>
    intro s acc _ _ hacc _
    refine ⟨s, rfl, ?_, ?_⟩
    · rw [List.append_nil, terminated_lines_no_terminator acc hacc, List.append_nil]
    · rw [List.append_nil, terminated_lines_no_terminator acc hacc]
      rfl
  | cons c cs ih =>
    intro s acc hp hnul hacc hbytes
    have hc0 : c ≠ NUL := fun e => hbytes (by simp [e])
    have hcs : NUL ∉ cs := fun e => hbytes (by simp [e])
    cases hc : is_terminator c with
    | true =>
      obtain ⟨s1, h1, hp1, hl1, hd1⟩ := read_loop_byte_flush s acc c hp hnul hc
      obtain ⟨s2, h2, hl2, hd2⟩ := ih s1 [] hp1 (by simp) (by simp) hcs
      refine ⟨s2, by simp [read_loop_chunk, h1, h2], ?_, ?_⟩
      · rw [hl2, hl1, terminated_lines_flush acc cs c hacc hc, List.nil_append,
          List.append_assoc]
      · rw [hd2, hd1, terminated_lines_flush acc cs c hacc hc, List.nil_append,
          List.foldl_append]
    | false =>
      obtain ⟨s1, h1, hp1, hl1, hpr1, hout1⟩ := read_loop_byte_append s acc c hp hc
      obtain ⟨s2, h2, hl2, hd2⟩ := ih s1 (acc ++ [c]) hp1
        (by simp [hnul, Ne.symm hc0])
        (by
          intro x hx
          rcases List.mem_append.mp hx with hx | hx
          · exact hacc x hx
          · rw [List.mem_singleton.mp hx]; exact hc)
        hcs
      refine ⟨s2, by simp [read_loop_chunk, h1, h2], ?_, ?_⟩
      · rw [hl2, hl1, List.append_assoc, List.singleton_append]
      · rw [hd2, hpr1, hout1, List.append_assoc, List.singleton_append]

theorem read_loop_chunk_append (a b : List Char) :
    ∀ s, read_loop_chunk s (a ++ b) =
      match read_loop_chunk s a with
      | none => none
      | some s1 => read_loop_chunk s1 b := by
  induction a with
  | nil => intro s; rfl
  | cons c cs ih =>
    intro s
    simp only [List.cons_append, read_loop_chunk]
    cases read_loop_byte s c with
    | none => rfl
    | some s1 => exact ih s1

theorem read_loop_eq_chunk (chunks : List (List Char)) (hne : ∀ chunk ∈ chunks, chunk ≠ []) :
    ∀ s, read_loop s chunks = read_loop_chunk s chunks.flatten := by
  induction chunks with
  | nil => intro s; rfl
  | cons chunk rest ih =>
    intro s
    have hc : ¬ chunk.length ≤ 0 := by
      have := hne chunk (by simp)
      have : 0 < chunk.length := List.length_pos.mpr this
      omega
    rw [read_loop, if_neg hc, List.flatten_cons, read_loop_chunk_append]
    cases read_loop_chunk s chunk with
    | none => rfl
    | some s1 => exact ih (fun c hcm => hne c (by simp [hcm])) s1

theorem read_loop_start_pending (garbage : List Char) (h : garbage.length = LINE_BUFFER_SIZE) :
    Pending [] (read_loop_start garbage) :=
  ⟨h, rfl, rfl⟩

/-! ## Read loop: settled claims -/

/-- C15: for chunks as `read` delivers them (each non-empty) holding no NUL
byte, the lines handed to `parse_git_progress` and `draw_progress_bar` are, in
order, the non-empty segments of the concatenated chunks that are followed by
'\r' or '\n', each cut to 4095 bytes: the loop ends with the progress state
obtained by running `parse_git_progress` over exactly these lines and with the
text of one `draw_progress_bar` after each of them. So the result depends on
the concatenation only, and "\r\n" hands the line before it over once. -/
theorem C15_dispatched_lines (garbage : List Char) (chunks : List (List Char))
    (hbuf : garbage.length = LINE_BUFFER_SIZE)
    (hne : ∀ chunk ∈ chunks, chunk ≠ [])
    (hnul : ∀ chunk ∈ chunks, NUL ∉ chunk) :
    ∃ s, read_loop (read_loop_start garbage) chunks = some s ∧
      s.lines = terminated_lines chunks.flatten ∧
      (s.progress, s.output) =
        (terminated_lines chunks.flatten).foldl dispatch_line
          ({ total := 100, current := 0, phase := "", width := 40 }, []) := by
  have hj : NUL ∉ chunks.flatten := by
    intro hm
    obtain ⟨chunk, hc, hx⟩ := List.mem_flatten.mp hm
    exact hnul chunk hc hx
  obtain ⟨s, hs, hl, hd⟩ := read_loop_chunk_lines chunks.flatten (read_loop_start garbage) []
    (read_loop_start_pending garbage hbuf) (by simp) (by simp) hj
  exact ⟨s, by rw [read_loop_eq_chunk chunks hne, hs], by simpa [read_loop_start] using hl,
    by simpa [read_loop_start] using hd⟩

/-- C15 at the chunks "ab\rRecei" and "ving objects: (1/2)\r\nef": the lines
are "ab" and "Receiving objects: (1/2)", the second cut by a chunk boundary
and followed by "\r\n"; "ef" has no terminator. The progress state ends at 1
of 2 in phase "Receiving ", and the bar was drawn twice. -/
theorem C15_dispatched_lines_witness :
    ∃ s, read_loop (read_loop_start (List.replicate 4096 'x'))
        ["ab\rRecei".toList, "ving objects: (1/2)\r\nef".toList] = some s ∧
      s.lines = ["ab".toList, "Receiving objects: (1/2)".toList] ∧
      (s.progress, s.output) =
        ({ total := 2, current := 1, phase := "Receiving ", width := 40 },
         draw_progress_bar { total := 100, current := 0, phase := "", width := 40 }
           ++ draw_progress_bar { total := 2, current := 1, phase := "Receiving ", width := 40 }) :=
  match C15_dispatched_lines (List.replicate 4096 'x')
      ["ab\rRecei".toList, "ving objects: (1/2)\r\nef".toList]
      (List.length_replicate 4096 'x') (by decide) (by decide) with
  | ⟨s, h1, h2, h3⟩ => ⟨s, h1, h2.trans (by decide), h3.trans (by decide)⟩

/-- C20: from the start of the read loop, after any number of bytes and after
any chunks, no store has fallen outside `line_buffer` and `line_pos` is at
most 4095; a byte other than '\r' and '\n' that arrives while `line_pos` is
4095 leaves the whole state, buffer and `line_pos` included, as it was. -/
theorem C20_line_pos_bounded (garbage : List Char) (hbuf : garbage.length = LINE_BUFFER_SIZE) :
    (∀ bytes, ∃ s, read_loop_chunk (read_loop_start garbage) bytes = some s ∧
      s.line_pos ≤ 4095 ∧ s.line_buffer.length = 4096) ∧
    (∀ chunks, ∃ s, read_loop (read_loop_start garbage) chunks = some s ∧
      s.line_pos ≤ 4095 ∧ s.line_buffer.length = 4096) ∧
    (∀ (s : ReadLoopState) (c : Char), s.line_buffer.length = 4096 → s.line_pos ≤ 4095 →
      ∃ s1, read_loop_byte s c = some s1 ∧ s1.line_pos ≤ 4095 ∧ s1.line_buffer.length = 4096) ∧
    (∀ (s : ReadLoopState) (c : Char), s.line_pos = 4095 → c ≠ '\r' → c ≠ '\n' →
      read_loop_byte s c = some s) := by
  have hstart : ReadInv (read_loop_start garbage) := ⟨hbuf, Nat.zero_le _⟩
  refine ⟨?_, ?_, ?_, ?_⟩
  · intro bytes
    obtain ⟨s, hs, hlen, hpos⟩ := read_loop_chunk_inv bytes _ hstart
    exact ⟨s, hs, hpos, hlen⟩
  · intro chunks
    obtain ⟨s, hs, hlen, hpos⟩ := read_loop_inv chunks _ hstart
    exact ⟨s, hs, hpos, hlen⟩
  · intro s c hlen hpos
    obtain ⟨s1, hs, hlen1, hpos1⟩ := read_loop_byte_inv s c ⟨hlen, hpos⟩
    exact ⟨s1, hs, hpos1, hlen1⟩
  · intro s c hpos h1 h2
    unfold read_loop_byte
    have hterm : ¬ (c = '\r' ∨ c = '\n') := by
      rintro (h | h)
      · exact h1 h
      · exact h2 h
    have hfull : ¬ s.line_pos < LINE_BUFFER_SIZE - 1 := by
      rw [hpos]; decide
    rw [if_neg hterm, if_neg hfull]

/-- C20 at the bytes "abc\rde": the loop ends in a state with `line_pos` at
most 4095. -/
theorem C20_line_pos_bounded_witness :
    ∃ s, read_loop_chunk (read_loop_start (List.replicate 4096 'x')) "abc\rde".toList = some s ∧
      s.line_pos ≤ 4095 ∧ s.line_buffer.length = 4096 :=
  (C20_line_pos_bounded (List.replicate 4096 'x') (List.length_replicate 4096 'x')).1
    "abc\rde".toList

/-! ## Later claims on progress lines and location strings -/

/-- C16, evaluated at the inputs named by the claim: with prior counters 7 of
100, "Counting objects: (/)" sets current and total to 0, and
"Counting objects: (-1/5)" sets current to 2^64 - 1 and total to 5; neither is
treated as a parse failure. -/
theorem C16_empty_and_signed_halves_accepted :
    str_to_size [] = some 0 ∧
    str_to_size "-1".toList = some 18446744073709551615 ∧
    parse_git_progress "Counting objects: (/)".toList
        { total := 100, current := 7, phase := "", width := 40 }
      = { total := 0, current := 0, phase := "Counting  ", width := 40 } ∧
    parse_git_progress "Counting objects: (-1/5)".toList
        { total := 100, current := 7, phase := "", width := 40 }
      = { total := 5, current := 18446744073709551615, phase := "Counting  ", width := 40 } := by
  decide

/-- C17, the claim refuted: on "(1/2) Receiving objects: 50% (5/10)" the
counters come from the segment before the marker: current 1, total 2. -/
theorem C17_segment_before_marker_counterexample :
    parse_git_progress "(1/2) Receiving objects: 50% (5/10)".toList
        { total := 100, current := 0, phase := "", width := 40 }
      = { total := 2, current := 1, phase := "Receiving ", width := 40 } ∧
    (1 : Nat) ≠ 5 ∧ (2 : Nat) ≠ 10 := by
  decide

theorem parse_git_percentage_first_paren (head seg tail : List Char)
    (hhead : '(' ∉ head) (hseg : ')' ∉ seg) :
    parse_git_percentage (head ++ '(' :: (seg ++ ')' :: tail)) =
      parse_git_percentage ('(' :: (seg ++ [')'])) := by
  by_cases hs : '/' ∈ seg
  · obtain ⟨k, hk⟩ := strstr_single_of_mem hs
    obtain ⟨cur, tot, rfl, hcur, _⟩ := strstr_single_some hk
    have h1 : ')' ∉ cur := fun h => hseg (by simp [h])
    have h2 : ')' ∉ tot := fun h => hseg (by simp [h])
    have e1 := parse_git_percentage_segment head cur tot tail hhead h1 h2 hcur
    have e2 := parse_git_percentage_segment [] cur tot [] (by simp) h1 h2 hcur
    rw [e1]
    rw [List.nil_append] at e2
    rw [e2]
  · have e1 := parse_git_percentage_no_slash head seg tail hhead hseg hs
    have e2 := parse_git_percentage_no_slash [] seg [] (by simp) hseg hs
    rw [e1]
    rw [List.nil_append] at e2
    rw [e2]

/-- C17 as amended: on a line containing a phase marker the counter segment
read is the text between the first '(' of the whole line, before or after the
marker, and the next ')' after it: the counters are those of that segment
alone. -/
theorem C17_first_paren_of_line (head seg tail : List Char) (st : ProgressBar)
    (hhead : '(' ∉ head) (hseg : ')' ∉ seg)
    (hmarker : ∃ m ∈ phase_markers, m.1 <:+: head ++ '(' :: (seg ++ ')' :: tail)) :
    parse_git_percentage (head ++ '(' :: (seg ++ ')' :: tail)) =
      parse_git_percentage ('(' :: (seg ++ [')'])) ∧
    (parse_git_progress (head ++ '(' :: (seg ++ ')' :: tail)) st).current =
      (apply_info (parse_git_percentage ('(' :: (seg ++ [')']))) st).current ∧
    (parse_git_progress (head ++ '(' :: (seg ++ ')' :: tail)) st).total =
      (apply_info (parse_git_percentage ('(' :: (seg ++ [')']))) st).total := by
  have hp := parse_git_percentage_first_paren head seg tail hhead hseg
  obtain ⟨m, hm, hin⟩ := hmarker
  obtain ⟨lbl, hlbl⟩ := phase_of_line_isSome _ m.1 (List.mem_map.mpr ⟨m, hm, rfl⟩) hin
  refine ⟨hp, ?_, ?_⟩
  · rw [parse_git_progress_eq, hlbl, hp]
    cases parse_git_percentage ('(' :: (seg ++ [')'])) <;> rfl
  · rw [parse_git_progress_eq, hlbl, hp]
    cases parse_git_percentage ('(' :: (seg ++ [')'])) <;> rfl

/-- C17 as amended, at "(1/2) Receiving objects: 50% (5/10)": the segment read
is "1/2". -/
theorem C17_first_paren_of_line_witness :
    parse_git_percentage "(1/2) Receiving objects: 50% (5/10)".toList =
      parse_git_percentage "(1/2)".toList :=
  (C17_first_paren_of_line [] "1/2".toList " Receiving objects: 50% (5/10)".toList
    { total := 100, current := 0, phase := "", width := 40 } (by decide) (by decide)
    ⟨("Receiving objects:".toList, "Receiving "), by decide, by decide⟩).1

theorem exists_last_split {c : Char} {s : List Char} (h : c ∈ s) :
    ∃ a b, s = a ++ c :: b ∧ c ∉ b := by
  induction s with
  | nil => cases h
  | cons x xs ih =>
    by_cases hxs : c ∈ xs
    · obtain ⟨a, b, rfl, hb⟩ := ih hxs
      exact ⟨x :: a, b, rfl, hb⟩
    · have hx : c = x := by
        rcases List.mem_cons.mp h with e | e
        · exact e
        · exact absurd e hxs
      subst hx
      exact ⟨[], xs, rfl, hxs⟩

theorem identity_of_suffix_split (org rest : List Char) (ho : '/' ∉ org) :
    identity_of_suffix (org ++ '/' :: rest) =
      some { org := org, repo := strip_git_suffix rest } := by
  have hall : ∀ x ∈ org, (fun c => c != '/') x = true := by
    intro x hx
    have : x ≠ '/' := fun e => ho (e ▸ hx)
    simpa using this
  unfold identity_of_suffix
  rw [if_pos (by simp), List.takeWhile_append_of_pos hall, List.dropWhile_append_of_pos hall]
  simp

theorem parse_git_url_last_colon (a suffix : List Char) (hat : '@' ∈ a ++ ':' :: suffix)
    (hs : ':' ∉ suffix) :
    (parse_git_url (a ++ ':' :: suffix)).toOption = identity_of_suffix suffix := by
  by_cases hsl : '/' ∈ suffix
  · obtain ⟨k, hk⟩ := strstr_single_of_mem hsl
    obtain ⟨org, rest, rfl, ho, _⟩ := strstr_single_some hk
    obtain ⟨j, hj⟩ := strstr_single_of_mem hat
    have hlast : str_find_last (a ++ ':' :: (org ++ '/' :: rest)) [':'] = some a.length :=
      str_find_last_single_append a _ hs
    have hres : parse_git_url (a ++ ':' :: (org ++ '/' :: rest)) =
        .ok { org := org, repo := strip_git_suffix rest } := by
      unfold parse_git_url
      simp only [str_find, hj, hlast, drop_succ_append_cons, strstr_single_append org rest ho,
        parse_path_component_split org rest ho]
      simp
    rw [hres, identity_of_suffix_split org rest ho]
    rfl
  · obtain ⟨j, hj⟩ := strstr_single_of_mem hat
    have hlast : str_find_last (a ++ ':' :: suffix) [':'] = some a.length :=
      str_find_last_single_append a _ hs
    have hnone : strstr suffix ['/'] = none := strstr_single_none hsl
    have hid : identity_of_suffix suffix = none := by
      unfold identity_of_suffix
      rw [if_neg hsl]
    rw [hid]
    unfold parse_git_url
    simp only [str_find, hj, hlast, drop_succ_append_cons, hnone]
    simp
    rfl

/-- C18: for an input that contains '@' and at least one ':', the identity
returned by `parse_git_url` is a function of the text after the last ':'
alone: there is one exactly when that text contains '/', made of the text up
to its first '/' and the rest less one trailing ".git"; any other input with
an '@' and the same text after its last ':' returns the same. -/
theorem C18_last_colon_suffix_decides (url : List Char) (hat : '@' ∈ url) (hc : ':' ∈ url) :
    ∃ a suffix, url = a ++ ':' :: suffix ∧ ':' ∉ suffix ∧
      (parse_git_url url).toOption = identity_of_suffix suffix ∧
      ((parse_git_url url).toOption.isSome = true ↔ '/' ∈ suffix) ∧
      ∀ a2, '@' ∈ a2 ++ ':' :: suffix →
        (parse_git_url (a2 ++ ':' :: suffix)).toOption = (parse_git_url url).toOption := by
  obtain ⟨a, suffix, rfl, hs⟩ := exists_last_split hc
  have e1 := parse_git_url_last_colon a suffix hat hs
  refine ⟨a, suffix, rfl, hs, e1, ?_, ?_⟩
  · rw [e1]
    unfold identity_of_suffix
    by_cases hsl : '/' ∈ suffix
    · simp [hsl]
    · simp [hsl]
  · intro a2 h2
    rw [e1, parse_git_url_last_colon a2 suffix h2 hs]

/-- C18 at "https://user@host:8080/org/repo.git": the text after the last ':'
decides, whatever stands before it. -/
theorem C18_last_colon_suffix_decides_witness :
    ∃ a suffix, "https://user@host:8080/org/repo.git".toList = a ++ ':' :: suffix ∧
      ':' ∉ suffix ∧
      (parse_git_url "https://user@host:8080/org/repo.git".toList).toOption
        = identity_of_suffix suffix ∧
      ((parse_git_url "https://user@host:8080/org/repo.git".toList).toOption.isSome = true
        ↔ '/' ∈ suffix) ∧
      ∀ a2, '@' ∈ a2 ++ ':' :: suffix →
        (parse_git_url (a2 ++ ':' :: suffix)).toOption
          = (parse_git_url "https://user@host:8080/org/repo.git".toList).toOption :=
  C18_last_colon_suffix_decides "https://user@host:8080/org/repo.git".toList
    (by decide) (by decide)

end GitClone
